import Mathlib

/-!
Verification development for the Resethiq integrity kernel.

The definitions below are shallow embeddings of the TypeScript sources:

* `src/core/merkle.ts` — Merkle root computation, inclusion-proof
  construction and verification (`merkleRootFromLeafHex`, `buildLevels`,
  `merkleProof`, `verifyProof`);
* the CLI entry point — the streaming fingerprinter
  (`streamDigestsAndLeaves`), the attest branch (sampling policy, manifest
  and signed-payload digests) and the chunk-size validation;
* `src/integrity/kernel/hashing.ts` — `stableStringify` and `hashJSON`;
* `src/integrity/kernel/receipt.ts` — `createReceipt`;
* `src/integrity/kernel/transparencyLog.ts` — `appendTransparencyLog`;
* `src/core/verify.ts` — `verifyBundle`.

Cryptographic primitives (BLAKE2b-512, SHA-512, SHA-256, Ed25519) live in
`node:crypto`, outside the repository; they enter the model as function
parameters (`h`, `sha512hex`, ...).  Every structural statement below is
proved for an arbitrary such function, and witnesses instantiate them with
small concrete functions.  Buffers are modelled as lists of byte values,
JavaScript strings as Lean strings (all data relevant to the claims is
ASCII, where the UTF-16 code-unit order used by JavaScript agrees with
Lean's character order).
-/

namespace Resethiq

/-- Raw byte strings (node `Buffer`s): lists of byte values `< 256`.
Hash outputs are also `Bytes`; where a statement needs the byte range it is
an explicit hypothesis. -/
abbrev Bytes := List Nat

/-- Lowercase hexadecimal digit character for a value below 16, as produced
by `Buffer.prototype.toString("hex")`. -/
def hexDigit (d : Nat) : Char :=
  if d < 10 then Char.ofNat (48 + d) else Char.ofNat (87 + d)

/-- The two hex digits of one byte. -/
def byteToHex (b : Nat) : List Char :=
  [hexDigit (b / 16), hexDigit (b % 16)]

/-- `buf.toString("hex")`: lowercase hex encoding of a byte string. -/
def bytesToHex (bs : Bytes) : String :=
  String.mk ((bs.map byteToHex).flatten)

/-- Numeric value of a hex digit character (case-insensitive), `0` for any
other character.  Models the per-digit decoding of `Buffer.from(s, "hex")`
on the valid hex strings the code feeds it. -/
def hexVal (c : Char) : Nat :=
  if 48 ≤ c.toNat ∧ c.toNat ≤ 57 then c.toNat - 48
  else if 97 ≤ c.toNat ∧ c.toNat ≤ 102 then c.toNat - 87
  else if 65 ≤ c.toNat ∧ c.toNat ≤ 70 then c.toNat - 55
  else 0

/-- Decode consecutive pairs of hex digits into bytes; a dangling single
character is dropped, as `Buffer.from(s, "hex")` truncates. -/
def hexPairs : List Char → Bytes
  | c1 :: c2 :: rest => (16 * hexVal c1 + hexVal c2) :: hexPairs rest
  | _ => []

/-- `Buffer.from(s, "hex")`. -/
def hexToBytes (s : String) : Bytes := hexPairs s.data

/-- All values of the list are byte values. -/
def IsBytes (bs : Bytes) : Prop := ∀ b ∈ bs, b < 256

/-- `Buffer.from(s)` for the ASCII strings the code uses (UTF-8 bytes of an
ASCII string are its code points). -/
def asciiBytes (s : String) : Bytes := s.data.map Char.toNat

/-! ## Merkle engine (`src/core/merkle.ts`)

All functions take the hash `h : Bytes → Bytes` (the code's
`h = crypto.createHash("blake2b512")...digest()`) as a parameter. -/

/-- The body of the level loop shared by `merkleRootFromLeafHex` and
`buildLevels`: combine adjacent pairs left to right; an unpaired last node
is paired with itself (`level[i + 1] ?? level[i]`). -/
def combineLevel (h : Bytes → Bytes) : List Bytes → List Bytes
  | [] => []
  | [x] => [h (x ++ x)]
  | x :: y :: rest => h (x ++ y) :: combineLevel h rest

/-- Each combined level has half the nodes, rounded up. -/
theorem combineLevel_length (h : Bytes → Bytes) :
    ∀ l : List Bytes, (combineLevel h l).length = (l.length + 1) / 2
  | [] => by simp [combineLevel]
  | [x] => by simp [combineLevel]
  | _ :: _ :: rest => by
    simp [combineLevel, combineLevel_length h rest]; omega

/-- The `while (level.length > 1)` loop of `merkleRootFromLeafHex`,
returning the single remaining node (`level[0]`). -/
def merkleRootLevel (h : Bytes → Bytes) (level : List Bytes) : Bytes :=
  if level.length ≤ 1 then level.headD []
  else merkleRootLevel h (combineLevel h level)
termination_by level.length
decreasing_by simp [combineLevel_length]; omega

/-- Result record of `merkleRootFromLeafHex`. -/
structure MerkleRootResult where
  root_hex : String
  leaf_count : Nat

/-- `merkleRootFromLeafHex(leafHex)`: hash of the sentinel string
`"resethiq:empty"` for an empty input, otherwise the bottom-up pairing
loop over the decoded leaves. -/
def merkleRootFromLeafHex (h : Bytes → Bytes) (leafHex : List String) :
    MerkleRootResult :=
  if leafHex.length = 0 then
    { root_hex := bytesToHex (h (asciiBytes "resethiq:empty")), leaf_count := 0 }
  else
    { root_hex := bytesToHex (merkleRootLevel h (leafHex.map hexToBytes)),
      leaf_count := leafHex.length }

/-- The level stack of `buildLevels`, starting from an explicit bottom
level: the level is recorded, then the loop repeats on the combined level
while more than one node remains. -/
def buildLevelsFrom (h : Bytes → Bytes) (level : List Bytes) :
    List (List Bytes) :=
  if level.length ≤ 1 then [level]
  else level :: buildLevelsFrom h (combineLevel h level)
termination_by level.length
decreasing_by simp [combineLevel_length]; omega

/-- `buildLevels(leafHex)`, including its special case for an empty input. -/
def buildLevels (h : Bytes → Bytes) (leafHex : List String) :
    List (List Bytes) :=
  if leafHex.length = 0 then [[h (asciiBytes "resethiq:empty")]]
  else buildLevelsFrom h (leafHex.map hexToBytes)

/-- The proof object of `merkleProof`. -/
structure MerkleProofData where
  index : Nat
  leaf_hex : String
  siblings_hex : List String

/-- The sibling-collection loop of `merkleProof`: for every level below the
top, record `nodes[pairIdx] ?? nodes[idx]` and halve the index. -/
def proofSiblings (h : Bytes → Bytes) :
    List (List Bytes) → Nat → List Bytes
  | [], _ => []
  | [_], _ => []
  | nodes :: next :: rest, idx =>
    let pairIdx := if idx % 2 = 1 then idx - 1 else idx + 1
    nodes.getD pairIdx (nodes.getD idx []) ::
      proofSiblings h (next :: rest) (idx / 2)

/-- `merkleProof(leafHex, index)`.  The code throws on an empty tree or an
out-of-range index; the model returns `none` there.  (The index is a
natural number; the code's `index < 0` guard is unrepresentable.) -/
def merkleProof (h : Bytes → Bytes) (leafHex : List String) (index : Nat) :
    Option MerkleProofData :=
  if leafHex.length = 0 then none
  else if leafHex.length ≤ index then none
  else some
    { index := index
      leaf_hex := leafHex.getD index ""
      siblings_hex :=
        (proofSiblings h (buildLevels h leafHex) index).map bytesToHex }

/-- One iteration of the verification loop of `verifyProof`: decode the
sibling, combine on the side given by the index parity, halve the index. -/
def verifyStep (h : Bytes → Bytes) (acc : Bytes × Nat) (sibHex : String) :
    Bytes × Nat :=
  let sib := hexToBytes sibHex
  (if acc.2 % 2 = 1 then h (sib ++ acc.1) else h (acc.1 ++ sib), acc.2 / 2)

/-- `verifyProof(rootHex, proof)`: fold the verification step over the
siblings and compare the final node's hex encoding with the root. -/
def verifyProof (h : Bytes → Bytes) (rootHex : String)
    (p : MerkleProofData) : Bool :=
  let fin := p.siblings_hex.foldl (verifyStep h) (hexToBytes p.leaf_hex, p.index)
  bytesToHex fin.1 == rootHex

/-- The byte-level path recomputation performed by `verifyProof`, with the
siblings already decoded.  Used to state the verification invariant. -/
def chainUp (h : Bytes → Bytes) : Bytes → Nat → List Bytes → Bytes
  | node, _, [] => node
  | node, idx, sib :: rest =>
    chainUp h (if idx % 2 = 1 then h (sib ++ node) else h (node ++ sib))
      (idx / 2) rest

/-! ## JSON values and serialization

In-memory JavaScript values, as handled by `JSON.stringify` and by
`stableStringify` of `src/integrity/kernel/hashing.ts`.  Numbers are
modelled as integers plus the non-finite specials; the values the kernel
serializes are integral (byte counts, leaf counts, chunk sizes). -/

/-- A JavaScript number: an integer, or one of the non-finite specials. -/
inductive JsNumber where
  | int (n : Int)
  | nan
  | infinity
  | negInfinity
deriving DecidableEq

/-- `Number.isFinite`. -/
def JsNumber.isFinite : JsNumber → Bool
  | .int _ => true
  | _ => false

/-- `JSON.stringify` on a number: decimal text for a finite value, the text
`null` for `NaN` and the infinities. -/
def renderNumber : JsNumber → String
  | .int n => toString n
  | _ => "null"

/-- An in-memory JavaScript value of the shapes the kernel serializes.
Object fields are kept in insertion order (`Object.keys` order); the
objects the code builds have pairwise-distinct keys. -/
inductive Json where
  | null
  | bool (b : Bool)
  | num (n : JsNumber)
  | str (s : String)
  | arr (elems : List Json)
  | obj (fields : List (String × Json))

/-- `JSON.stringify` escaping for one string character. -/
def escapeChar (c : Char) : String :=
  if c = '"' then "\\\""
  else if c = '\\' then "\\\\"
  else if c = Char.ofNat 8 then "\\b"
  else if c = '\t' then "\\t"
  else if c = '\n' then "\\n"
  else if c = Char.ofNat 12 then "\\f"
  else if c = '\r' then "\\r"
  else if c.toNat < 32 then "\\u00" ++ String.mk (byteToHex c.toNat)
  else String.singleton c

/-- `JSON.stringify` on a string: quoted, characters escaped. -/
def jsonQuote (s : String) : String :=
  "\"" ++ String.join (s.data.map escapeChar) ++ "\""

/-- Lexicographic strict ordering on character lists by code point: the
string comparison `.sort()` applies to keys.  (JavaScript compares UTF-16
code units; on the ASCII keys involved that is code-point order.) -/
def keyLt : List Char → List Char → Bool
  | [], [] => false
  | [], _ :: _ => true
  | _ :: _, [] => false
  | c :: cs, d :: ds =>
    if c < d then true else if d < c then false else keyLt cs ds

/-- `a ≤ b` in key order. -/
def keyLe (a b : String) : Bool := !(keyLt b.data a.data)

/-- Insert a field into a key-sorted field list, before any field of equal
or larger key. -/
def insertField {α : Type _} (kv : String × α) :
    List (String × α) → List (String × α)
  | [] => [kv]
  | x :: xs => if keyLe kv.1 x.1 then kv :: x :: xs else x :: insertField kv xs

/-- Sort a field list by key.  Models `Object.keys(x).sort()` (string
comparison, stable); on the duplicate-free key lists of real objects the
result is the unique key-sorted ordering of the fields. -/
def sortFields {α : Type _} : List (String × α) → List (String × α)
  | [] => []
  | kv :: xs => insertField kv (sortFields xs)

/-- Membership in an `insertField` result. -/
theorem mem_insertField {α : Type _} (kv x : String × α) :
    ∀ l : List (String × α), x ∈ insertField kv l ↔ x = kv ∨ x ∈ l
  | [] => by simp [insertField]
  | y :: ys => by
    simp only [insertField]
    by_cases hle : keyLe kv.1 y.1
    · simp [hle]
    · simp only [hle, if_false, Bool.false_eq_true, List.mem_cons,
        mem_insertField kv x ys]
      tauto

/-- `sortFields` permutes the fields; in particular it preserves
membership. -/
theorem mem_sortFields {α : Type _} (x : String × α) :
    ∀ l : List (String × α), x ∈ sortFields l ↔ x ∈ l
  | [] => Iff.rfl
  | kv :: xs => by
    simp [sortFields, mem_insertField, mem_sortFields x xs]

mutual

/-- `JSON.stringify` on a value (no replacer, no indent): arrays and object
fields in order, no whitespace.  This is the serializer the attest branch
and `verifyBundle` apply to manifests and signed payloads. -/
def jsonStringify : Json → String
  | .null => "null"
  | .bool b => if b then "true" else "false"
  | .num n => renderNumber n
  | .str s => jsonQuote s
  | .arr elems => "[" ++ String.intercalate "," (jsonStringifyList elems) ++ "]"
  | .obj fields =>
    "\x7b" ++ String.intercalate "," (jsonStringifyFields fields) ++ "\x7d"

def jsonStringifyList : List Json → List String
  | [] => []
  | x :: xs => jsonStringify x :: jsonStringifyList xs

def jsonStringifyFields : List (String × Json) → List String
  | [] => []
  | (k, v) :: xs => (jsonQuote k ++ ":" ++ jsonStringify v) :: jsonStringifyFields xs

end

/-- `stableStringify` of `src/integrity/kernel/hashing.ts`: like
`JSON.stringify` but object keys are sorted before the fields are
serialized.  (The source iterates `Object.keys(x).sort()` and looks each
value up; with the duplicate-free keys of real objects that is the same as
sorting the field list.) -/
def stableStringify : Json → String
  | .null => "null"
  | .bool b => if b then "true" else "false"
  | .num n => renderNumber n
  | .str s => jsonQuote s
  | .arr elems =>
    "[" ++ String.intercalate "," (elems.attach.map
      (fun e => stableStringify e.1)) ++ "]"
  | .obj fields =>
    "\x7b" ++ String.intercalate "," ((sortFields fields).attach.map
      (fun kv => jsonQuote kv.1.1 ++ ":" ++ stableStringify kv.1.2)) ++ "\x7d"
termination_by j => sizeOf j
decreasing_by
  · have := List.sizeOf_lt_of_mem e.2
    simp only [Json.arr.sizeOf_spec]
    omega
  · rcases kv with ⟨⟨k, v⟩, hkv⟩
    have hmem : (k, v) ∈ fields := (mem_sortFields (k, v) fields).mp hkv
    have := List.sizeOf_lt_of_mem hmem
    simp only [Json.obj.sizeOf_spec, Prod.mk.sizeOf_spec] at *
    omega

mutual

/-- Recursively sort every object's fields by key.  A proof-side
normalization: `stableStringify` is `jsonStringify` after `sortJson`. -/
def sortJson : Json → Json
  | .null => .null
  | .bool b => .bool b
  | .num n => .num n
  | .str s => .str s
  | .arr elems => .arr (sortJsonList elems)
  | .obj fields => .obj (sortFields (sortJsonFields fields))

def sortJsonList : List Json → List Json
  | [] => []
  | x :: xs => sortJson x :: sortJsonList xs

def sortJsonFields : List (String × Json) → List (String × Json)
  | [] => []
  | (k, v) :: xs => (k, sortJson v) :: sortJsonFields xs

end

/-- The value's object fields are key-sorted already, at every level.  On
such values insertion order and canonical (sorted) order coincide. -/
inductive KeysSorted : Json → Prop where
  | null : KeysSorted .null
  | bool (b : Bool) : KeysSorted (.bool b)
  | num (n : JsNumber) : KeysSorted (.num n)
  | str (s : String) : KeysSorted (.str s)
  | arr (elems : List Json) : (∀ e ∈ elems, KeysSorted e) →
      KeysSorted (.arr elems)
  | obj (fields : List (String × Json)) : sortFields fields = fields →
      (∀ kv ∈ fields, KeysSorted kv.2) → KeysSorted (.obj fields)

/-- Two values denote the same finite map at every object node: equal
scalars, pointwise-related arrays, and objects equal up to reordering of
their (duplicate-free) fields with recursively related values.  The
reorderings are generated by adjacent transpositions of fields with
distinct keys together with transitivity, which yields every permutation
of a duplicate-free field list. -/
inductive SameMap : Json → Json → Prop where
  | null : SameMap .null .null
  | bool (b : Bool) : SameMap (.bool b) (.bool b)
  | num (n : JsNumber) : SameMap (.num n) (.num n)
  | str (s : String) : SameMap (.str s) (.str s)
  | arrNil : SameMap (.arr []) (.arr [])
  | arrCons {x y : Json} {xs ys : List Json} : SameMap x y →
      SameMap (.arr xs) (.arr ys) → SameMap (.arr (x :: xs)) (.arr (y :: ys))
  | objNil : SameMap (.obj []) (.obj [])
  | objCons {k : String} {v w : Json} {fs gs : List (String × Json)} :
      SameMap v w → SameMap (.obj fs) (.obj gs) →
      SameMap (.obj ((k, v) :: fs)) (.obj ((k, w) :: gs))
  | objSwap {p q : String × Json} {fs : List (String × Json)} : p.1 ≠ q.1 →
      SameMap (.obj (p :: q :: fs)) (.obj (q :: p :: fs))
  | trans {a b c : Json} : SameMap a b → SameMap b c → SameMap a c

/-! ## Attest digests (`main`, attest branch) -/

/-- `sha512Hex(JSON.stringify(manifest))`: the manifest digest recorded in
the signed payload.  `sha512hex` is the hex-encoded SHA-512 of
`src/core/sign.ts`, a parameter of the model. -/
def attestManifestSha512 (sha512hex : String → String) (manifest : Json) :
    String :=
  sha512hex (jsonStringify manifest)

/-- `sha512Hex(JSON.stringify(signedPayload))`: the digest recorded in the
signature block. -/
def attestSignedMessageSha512 (sha512hex : String → String)
    (signedPayload : Json) : String :=
  sha512hex (jsonStringify signedPayload)

/-- The signed payload object in the field order the attest branch builds
it. -/
def signedPayloadJson (manifest_sha512 : String) (file_digests merkle : Json) :
    Json :=
  .obj [("schema", .str "resethiq.signed_payload.v1"),
        ("manifest_sha512", .str manifest_sha512),
        ("file_digests", file_digests),
        ("merkle", merkle)]

/-- A manifest with the exact key structure and insertion order the attest
branch constructs (`schema`, `engine`, `run`, `subject`, `environment`),
with concrete values for the run-dependent fields. -/
def manifestExample : Json :=
  .obj [("schema", .str "resethiq.manifest.v1"),
        ("engine", .obj [("name", .str "Resethiq Integrity Engine"),
                         ("version", .str "0.1.0")]),
        ("run", .obj [("run_id", .str "00000000-0000-4000-8000-000000000000"),
                      ("created_at", .str "2026-01-01T00:00:00.000Z")]),
        ("subject", .obj [("filename", .str "data.bin"),
                          ("bytes", .num (.int 5))]),
        ("environment", .obj [("node", .str "v20.0.0"),
                              ("platform", .str "linux"),
                              ("arch", .str "x64")])]

/-- A signed payload with the exact key structure the attest branch
constructs, with concrete digest values. -/
def signedPayloadExample : Json :=
  signedPayloadJson "aa11"
    (.obj [("blake2b_512", .str "bb22"), ("sha512", .str "cc33")])
    (.obj [("algorithm", .str "blake2b512"),
           ("root", .str "dd44"),
           ("leaf_count", .num (.int 1)),
           ("chunk_size", .num (.int 4194304))])

/-! ## Kernel hashing and receipts
(`src/integrity/kernel/hashing.ts`, `receipt.ts`) -/

/-- `hashJSON(obj)`: hex hash of the stable stringification.  `sha256hex`
is the hex-encoded SHA-256 of `hashHex`, a parameter of the model. -/
def hashJSON (sha256hex : String → String) (j : Json) : String :=
  sha256hex (stableStringify j)

/-- `createReceipt(data)`: prepend `receipt_version: "1"`, hash the base
object with `hashJSON`, and append the hash as `receipt_hash`.  `data` is
the field list of the argument object in insertion order; the result is
the receipt's field list and its `receipt_hash`. -/
def createReceipt (sha256hex : String → String)
    (data : List (String × Json)) : List (String × Json) × String :=
  let base : List (String × Json) := ("receipt_version", Json.str "1") :: data
  let receipt_hash := hashJSON sha256hex (Json.obj base)
  (base ++ [("receipt_hash", Json.str receipt_hash)], receipt_hash)

/-! ## Streaming fingerprinter (`streamDigestsAndLeaves`)

The stream delivers the file as a sequence of `data` events; the model
takes that sequence (`reads`) as a parameter, so every statement holds for
every read partition of the input. -/

/-- The mutable state of the fingerprinting loop: bytes seen, the
accumulator buffer, the chunk counter and the emitted leaf digests. -/
structure FingerState where
  bytes : Nat
  buf : Bytes
  chunks : Nat
  leafHexes : List String

/-- Initial fingerprinter state. -/
def initFingerState : FingerState :=
  { bytes := 0, buf := [], chunks := 0, leafHexes := [] }

/-- The `while (buf.length >= chunkSize)` loop body: emit the leaf digest
of each full chunk prefix, returning the emitted digests and the remaining
buffer.  The source loop has no `0 < chunkSize` guard and does not
terminate for non-positive (or fractional) chunk sizes; the model is only
used with the positive sizes the CLI admits. -/
def drainChunks (h : Bytes → Bytes) (chunkSize : Nat) (buf : Bytes) :
    List String × Bytes :=
  if _hc : 0 < chunkSize ∧ chunkSize ≤ buf.length then
    let rest := drainChunks h chunkSize (buf.drop chunkSize)
    (bytesToHex (h (buf.take chunkSize)) :: rest.1, rest.2)
  else ([], buf)
termination_by buf.length
decreasing_by simp only [List.length_drop]; omega

/-- One `data` event: count the bytes, append to the accumulator, drain
full chunks. -/
def processData (h : Bytes → Bytes) (chunkSize : Nat) (st : FingerState)
    (chunk : Bytes) : FingerState :=
  let out := drainChunks h chunkSize (st.buf ++ chunk)
  { bytes := st.bytes + chunk.length
    buf := out.2
    chunks := st.chunks + out.1.length
    leafHexes := st.leafHexes ++ out.1 }

/-- End of stream: `if (buf.length > 0)` emit one final short leaf. -/
def finalizeStream (h : Bytes → Bytes) (st : FingerState) : FingerState :=
  if st.buf.length = 0 then st
  else
    { bytes := st.bytes, buf := [], chunks := st.chunks + 1,
      leafHexes := st.leafHexes ++ [bytesToHex (h st.buf)] }

/-- `file_digests` of the result object. -/
structure FileDigests where
  blake2b_512 : String
  sha512 : String

/-- `merkle` of the result object. -/
structure MerkleCommitment where
  algorithm : String
  root : String
  leaf_count : Nat
  chunk_size : Nat

/-- The result object of `streamDigestsAndLeaves`. -/
structure StreamResult where
  bytes : Nat
  chunks_count : Nat
  leaf_hexes : List String
  file_digests : FileDigests
  merkle : MerkleCommitment

/-- `streamDigestsAndLeaves(filePath, chunkSize)` over the read events
`reads`.  The incremental `update` calls of the two file hashers amount to
hashing the concatenation of all reads, which the model writes directly.
`hb2b` doubles as the leaf hash, as in the source. -/
def streamDigestsAndLeaves (hb2b hsha : Bytes → Bytes) (reads : List Bytes)
    (chunkSize : Nat) : StreamResult :=
  let st := finalizeStream hb2b
    (reads.foldl (processData hb2b chunkSize) initFingerState)
  let m := merkleRootFromLeafHex hb2b st.leafHexes
  { bytes := st.bytes
    chunks_count := st.chunks
    leaf_hexes := st.leafHexes
    file_digests :=
      { blake2b_512 := bytesToHex (hb2b reads.flatten)
        sha512 := bytesToHex (hsha reads.flatten) }
    merkle :=
      { algorithm := "blake2b512", root := m.root_hex,
        leaf_count := m.leaf_count, chunk_size := chunkSize } }

/-! Specification-side chunk decompositions, used to state what the
streaming loop computes. -/

/-- The maximal chunks of exactly `cs` bytes at the front of `x`. -/
def fullChunks (cs : Nat) (x : Bytes) : List Bytes :=
  if _hc : 0 < cs ∧ cs ≤ x.length then
    x.take cs :: fullChunks cs (x.drop cs)
  else []
termination_by x.length
decreasing_by simp only [List.length_drop]; omega

/-- What remains of `x` after removing its full chunks. -/
def chunkRest (cs : Nat) (x : Bytes) : Bytes :=
  if _hc : 0 < cs ∧ cs ≤ x.length then chunkRest cs (x.drop cs) else x
termination_by x.length
decreasing_by simp only [List.length_drop]; omega

/-- The chunk decomposition of a byte stream: successive `cs`-byte chunks,
the last one possibly short, none for the empty stream. -/
def listChunks (cs : Nat) (x : Bytes) : List Bytes :=
  if _hc : 0 < cs ∧ x ≠ [] then x.take cs :: listChunks cs (x.drop cs)
  else []
termination_by x.length
decreasing_by
  simp only [List.length_drop]
  have : 0 < x.length := List.length_pos.mpr _hc.2
  omega

/-! ## Attest sampling policy (`main`, attest branch) -/

/-- `Array.from(new Set(l))`: first-occurrence deduplication in insertion
order. -/
def jsSetDedup (l : List Nat) : List Nat :=
  l.foldl (fun acc i => if i ∈ acc then acc else acc ++ [i]) []

/-- The deterministic sample indices of the attest branch:
`[0, ⌊n/4⌋, ⌊n/2⌋, ⌊3n/4⌋, max(0, n-1)]`, filtered to `[0, n)` and
deduplicated.  The source's `i >= 0` filter is vacuous over naturals, and
`Math.max(0, n - 1)` is `max 0 (n - 1)` with truncated subtraction. -/
def sampleIndices (leafCount : Nat) : List Nat :=
  jsSetDedup
    (([0, leafCount / 4, leafCount / 2, 3 * leafCount / 4,
       max 0 (leafCount - 1)]).filter (fun i => decide (i < leafCount)))

/-- One entry of `proofs.sampled`. -/
structure SampledProof where
  index : Nat
  leaf_hex : String
  siblings_hex : List String
  verifies : Bool

/-- The `sampledProofs` computation: for each sampled index, build the
inclusion proof and record its self-verification flag.  An index the proof
builder rejects would surface as `none` (the source throws); the sampled
indices never are. -/
def sampledProofs (h : Bytes → Bytes) (leafHexes : List String)
    (rootHex : String) : List (Option SampledProof) :=
  (sampleIndices leafHexes.length).map (fun i =>
    (merkleProof h leafHexes i).map (fun p =>
      { index := p.index, leaf_hex := p.leaf_hex,
        siblings_hex := p.siblings_hex,
        verifies := verifyProof h rootHex p }))

/-! ## CLI chunk-size validation (`main`) -/

/-- The result of `Number(getFlag(args, "--chunk", ...))`: a finite value
(JavaScript numbers include non-integral values such as `0.5`), `NaN`, or
an infinity. -/
inductive ChunkValue where
  | num (q : ℚ)
  | nan
  | infinity
  | negInfinity

/-- The CLI guard `!Number.isFinite(chunkSize) || chunkSize <= 0`:
the chunk value is accepted iff it is finite and strictly positive.
`usage`/`process.exit(1)` is taken exactly when this is `false`. -/
def chunkAccepted : ChunkValue → Bool
  | .num q => decide (0 < q)
  | _ => false

/-- The chunk value is a positive integer. -/
def ChunkValue.isPosInt : ChunkValue → Prop
  | .num q => 0 < q ∧ q.den = 1
  | _ => False

/-! ## Transparency log (`src/integrity/kernel/transparencyLog.ts`)

JavaScript string operations on the log file content are modelled over
character lists: `split` on a separator character, `trim` (for the
whitespace characters occurring in log data), and `filter(Boolean)`. -/

/-- `s.split(sep)` for a one-character separator. -/
def splitChar (sep : Char) : List Char → List (List Char)
  | [] => [[]]
  | c :: rest =>
    match splitChar sep rest with
    | [] => [[c]]
    | grp :: grps =>
      if c = sep then [] :: grp :: grps else (c :: grp) :: grps

/-- `s.trim()`: drop leading and trailing whitespace. -/
def jsTrim (l : List Char) : List Char :=
  ((l.dropWhile Char.isWhitespace).reverse.dropWhile Char.isWhitespace).reverse

/-- The `prev_hash` extraction of `appendTransparencyLog`: trim, split into
lines, drop empty lines, and take field 3 of the last line, with `GENESIS`
as the fallback (`parts[3] ?? "GENESIS"`). -/
def logParsePrev (content : String) : String :=
  let lines := ((splitChar '\n' (jsTrim content.data)).map String.mk).filter
    (fun l => decide (l ≠ ""))
  match lines.getLast? with
  | none => "GENESIS"
  | some last => ((splitChar '\t' last.data).map String.mk).getD 3 "GENESIS"

/-- The return value of `appendTransparencyLog`. -/
structure LogAppendResult where
  entry_hash : String
  prev_hash : String

/-- `appendTransparencyLog`: read the previous `entry_hash` (or `GENESIS`
when the file is absent or holds no lines), hash
`prev_hash\nreceipt_hash\ntimestamp`, and append one tab-separated line.
`existing` is the current file content (`none` when the file does not
exist); the first component of the result is the file content after the
append.  `sha256hex` is `hashHex` of `hashing.ts`, a parameter. -/
def appendTransparencyLog (sha256hex : String → String)
    (existing : Option String) (receipt_hash timestamp : String) :
    String × LogAppendResult :=
  let prev_hash :=
    match existing with
    | none => "GENESIS"
    | some content => logParsePrev content
  let entry_hash :=
    sha256hex (prev_hash ++ "\n" ++ receipt_hash ++ "\n" ++ timestamp)
  let line := timestamp ++ "\t" ++ receipt_hash ++ "\t" ++ prev_hash ++ "\t"
    ++ entry_hash ++ "\n"
  ((existing.getD "") ++ line,
   { entry_hash := entry_hash, prev_hash := prev_hash })

/-- One well-formed transparency-log line. -/
def logLine (t r p e : String) : String :=
  t ++ "\t" ++ r ++ "\t" ++ p ++ "\t" ++ e ++ "\n"

/-- A parsed transparency-log entry, used to describe well-formed existing
content. -/
structure LogEntry where
  timestamp : String
  receipt_hash : String
  prev_hash : String
  entry_hash : String

/-- The file content holding the given entries, one line each. -/
def mkLogContent (entries : List LogEntry) : String :=
  String.join (entries.map (fun q =>
    logLine q.timestamp q.receipt_hash q.prev_hash q.entry_hash))

/-- A log field as actually written: nonempty, with no whitespace
characters (hex digests, `GENESIS`, and RFC-3339 timestamps qualify).  In
particular such a field contains no tab and no newline. -/
def cleanStr (s : String) : Prop :=
  s ≠ "" ∧ ∀ c ∈ s.data, ¬ c.isWhitespace

/-- All four fields of an entry are clean. -/
def cleanEntry (q : LogEntry) : Prop :=
  cleanStr q.timestamp ∧ cleanStr q.receipt_hash ∧ cleanStr q.prev_hash ∧
    cleanStr q.entry_hash

instance (s : String) : Decidable (cleanStr s) := by
  unfold cleanStr
  exact inferInstance

instance (q : LogEntry) : Decidable (cleanEntry q) := by
  unfold cleanEntry
  exact inferInstance

/-! ## Verifier (`src/core/verify.ts`) -/

/-- Property access `j[k]` on a parsed JSON value: `none` models
`undefined`. -/
def jGet (j : Json) (k : String) : Option Json :=
  match j with
  | .obj fs => (fs.find? (fun kv => kv.1 == k)).map (fun kv => kv.2)
  | _ => none

/-- `j[k] ?? d`. -/
def jGetD (j : Json) (k : String) (d : Json) : Json := (jGet j k).getD d

/-- `Number(x)` for the value shapes a parsed bundle can hold at
`merkle.chunk_size`.  Missing values, strings and containers are modelled
as `NaN` (the numeric parsing of strings is not modelled; a well-formed
bundle stores the chunk size as a number). -/
def jsNumberOf : Option Json → JsNumber
  | some (.num n) => n
  | some .null => .int 0
  | some (.bool b) => .int (if b then 1 else 0)
  | _ => .nan

/-- `x === s` for a known string `s`: true iff `x` is that string. -/
def jStrEq (o : Option Json) (s : String) : Bool :=
  match o with
  | some (.str t) => t == s
  | _ => false

/-- `x === n` for a recomputed count `n`: true iff `x` is that (finite)
number. -/
def jNatEq (o : Option Json) (n : Nat) : Bool :=
  match o with
  | some (.num (.int m)) => m == (n : Int)
  | _ => false

/-- The `checks` record of the verifier result, fields in source order. -/
structure VerifyChecks where
  file_blake2b_match : Bool
  file_sha512_match : Bool
  merkle_root_match : Bool
  leaf_count_match : Bool
  signed_message_sha512_match : Bool
  signature_valid : Bool

/-- `Object.values(checks)` in insertion order. -/
def VerifyChecks.values (c : VerifyChecks) : List Bool :=
  [c.file_blake2b_match, c.file_sha512_match, c.merkle_root_match,
   c.leaf_count_match, c.signed_message_sha512_match, c.signature_valid]

/-- The `checks` record as the JSON object the CLI prints. -/
def VerifyChecks.toJson (c : VerifyChecks) : Json :=
  .obj [("file_blake2b_match", .bool c.file_blake2b_match),
        ("file_sha512_match", .bool c.file_sha512_match),
        ("merkle_root_match", .bool c.merkle_root_match),
        ("leaf_count_match", .bool c.leaf_count_match),
        ("signed_message_sha512_match", .bool c.signed_message_sha512_match),
        ("signature_valid", .bool c.signature_valid)]

/-- The result object of `verifyBundle`, fields in source order. -/
structure VerifyResult where
  ok : Bool
  bytes : Nat
  expected : Json
  actual : Json
  checks : VerifyChecks

/-- The verifier result as the JSON object the CLI prints, keys in
insertion order. -/
def VerifyResult.toJson (r : VerifyResult) : Json :=
  .obj [("ok", .bool r.ok),
        ("bytes", .num (.int r.bytes)),
        ("expected", r.expected),
        ("actual", r.actual),
        ("checks", r.checks.toJson)]

/-- Top-level keys of a JSON object. -/
def jKeys : Json → List String
  | .obj fs => fs.map (fun kv => kv.1)
  | _ => []

/-- `verifyBundle({bundlePath, filePath})`: recompute digests, leaves and
root over the artifact (the verifier's streaming loop is the same text as
the fingerprinter's, so the model reuses `processData`/`finalizeStream`),
recompute `signed_message_sha512` over `JSON.stringify(claims)`, check the
signature, and assemble the per-check booleans.  `bundle` is the parsed
bundle JSON; `none` models the `Invalid chunk_size in bundle` throw (the
model restricts chunk sizes to integers). -/
def verifyBundle (hb2b hsha : Bytes → Bytes) (sha512hex : String → String)
    (sigVerify : String → String → String → Bool) (bundle : Json)
    (reads : List Bytes) : Option VerifyResult :=
  let claims := jGetD bundle "claims" (.obj [])
  let merkle := jGetD claims "merkle" (.obj [])
  let expectedFile := jGetD claims "file_digests" (.obj [])
  let sig := jGetD bundle "signature" (.obj [])
  match jsNumberOf (jGet merkle "chunk_size") with
  | .int n =>
    if n ≤ 0 then none
    else
      let chunkSize := n.toNat
      let st := finalizeStream hb2b
        (reads.foldl (processData hb2b chunkSize) initFingerState)
      let actualFile : FileDigests :=
        { blake2b_512 := bytesToHex (hb2b reads.flatten)
          sha512 := bytesToHex (hsha reads.flatten) }
      let merkleRes := merkleRootFromLeafHex hb2b st.leafHexes
      let signed_message_sha512 := sha512hex (jsonStringify claims)
      let sigOk := jStrEq (jGet sig "algorithm") "ed25519" &&
        (match jGet sig "public_key_pem", jGet sig "signature_b64" with
         | some (.str pem), some (.str sb) =>
           sigVerify pem (jsonStringify claims) sb
         | _, _ => false)
      let checks : VerifyChecks :=
        { file_blake2b_match :=
            jStrEq (jGet expectedFile "blake2b_512") actualFile.blake2b_512
          file_sha512_match :=
            jStrEq (jGet expectedFile "sha512") actualFile.sha512
          merkle_root_match := jStrEq (jGet merkle "root") merkleRes.root_hex
          leaf_count_match :=
            jNatEq (jGet merkle "leaf_count") merkleRes.leaf_count
          signed_message_sha512_match :=
            jStrEq (jGet sig "signed_message_sha512") signed_message_sha512
          signature_valid := sigOk }
      some
        { ok := checks.values.all id
          bytes := st.bytes
          expected := .obj [("file_digests", expectedFile), ("merkle", merkle)]
          actual := .obj
            [("file_digests",
              .obj [("blake2b_512", .str actualFile.blake2b_512),
                    ("sha512", .str actualFile.sha512)]),
             ("merkle_root", .str merkleRes.root_hex),
             ("leaf_count", .num (.int merkleRes.leaf_count))]
          checks := checks }
  | _ => none

/-- The verify command's exit: `process.exit(res.ok ? 0 : 3)`. -/
def verifyExitCode (r : VerifyResult) : Nat := if r.ok then 0 else 3

/-- A minimal parsed bundle: chunk size `1` under `claims.merkle`, no
recorded digests and no signature block. -/
def c7bundle : Json :=
  .obj [("claims", .obj [("merkle", .obj [("chunk_size", .num (.int 1))])])]

/-- The verifier result on `c7bundle` and an empty artifact, with the
BLAKE2b digest instantiated to the constant `[0]`, SHA-512 to `[1]`, the
string SHA-512 to `"S"`, and signature verification to `false`. -/
def c7res : VerifyResult :=
  { ok := false, bytes := 0,
    expected := .obj [("file_digests", .obj []),
      ("merkle", .obj [("chunk_size", .num (.int 1))])],
    actual := .obj [("file_digests",
        .obj [("blake2b_512", .str "00"), ("sha512", .str "01")]),
      ("merkle_root", .str "00"), ("leaf_count", .num (.int 0))],
    checks := ⟨false, false, false, false, false, false⟩ }

/-! ## Hex encoding lemmas -/

/-- Hex digit values are below 16. -/
theorem hexVal_lt (c : Char) : hexVal c < 16 := by
  unfold hexVal
  split
  · omega
  · split
    · omega
    · split <;> omega

/-- Decoding inverts encoding on single digits. -/
theorem hexVal_hexDigit {d : Nat} (hd : d < 16) : hexVal (hexDigit d) = d := by
  interval_cases d <;> decide

/-- Decoding inverts encoding on byte strings. -/
theorem hexPairs_byteToHex :
    ∀ bs : Bytes, IsBytes bs → hexPairs ((bs.map byteToHex).flatten) = bs
  | [], _ => rfl
  | b :: tl, hbs => by
    have hb : b < 256 := hbs b (List.mem_cons_self b tl)
    have htl : IsBytes tl := fun x hx => hbs x (List.mem_cons_of_mem b hx)
    have h1 : b / 16 < 16 := by omega
    have h2 : b % 16 < 16 := by omega
    simp only [List.map_cons, List.flatten_cons, byteToHex, List.cons_append,
      List.nil_append, hexPairs, hexVal_hexDigit h1, hexVal_hexDigit h2,
      List.cons.injEq]
    refine ⟨by omega, ?_⟩
    simpa using hexPairs_byteToHex tl htl

/-- `Buffer.from(buf.toString("hex"), "hex")` is the identity on byte
strings. -/
theorem hexToBytes_bytesToHex (bs : Bytes) (hbs : IsBytes bs) :
    hexToBytes (bytesToHex bs) = bs := by
  simpa [hexToBytes, bytesToHex] using hexPairs_byteToHex bs hbs

/-- Hex decoding always produces byte values. -/
theorem isBytes_hexPairs : ∀ l : List Char, IsBytes (hexPairs l)
  | [] => by intro b hb; simp [hexPairs] at hb
  | [_] => by intro b hb; simp [hexPairs] at hb
  | c1 :: c2 :: rest => by
    intro b hb
    simp only [hexPairs, List.mem_cons] at hb
    rcases hb with hb | hb
    · have := hexVal_lt c1
      have := hexVal_lt c2
      omega
    · exact isBytes_hexPairs rest b hb

/-- Hex decoding of a string produces byte values. -/
theorem isBytes_hexToBytes (s : String) : IsBytes (hexToBytes s) :=
  isBytes_hexPairs s.data

/-! ## C4: the empty Merkle root -/

/-- C4: `merkleRootFromLeafHex` on the empty leaf list returns the hex
encoding of the hash of the ASCII string `"resethiq:empty"` as `root_hex`,
and `leaf_count = 0` — for every hash function, hence in particular for
BLAKE2b-512. -/
theorem c4_empty_root (h : Bytes → Bytes) :
    (merkleRootFromLeafHex h []).root_hex
      = bytesToHex (h (asciiBytes "resethiq:empty")) ∧
    (merkleRootFromLeafHex h []).leaf_count = 0 :=
  ⟨rfl, rfl⟩

/-! ## C9: CLI chunk-size validation -/

/-- C9: the CLI guard accepts the non-integral chunk value `0.5`
(`Number.isFinite(0.5)` holds and `0.5 > 0`), although `0.5` is not a
positive integer — contradicting the requirement that every non-positive-
integer value be rejected.  Genuinely non-positive or non-finite values
are rejected as claimed. -/
theorem c9_chunk_validation :
    chunkAccepted (.num (1 / 2 : ℚ)) = true ∧
    ¬ ChunkValue.isPosInt (.num (1 / 2 : ℚ)) ∧
    chunkAccepted (.num 0) = false ∧
    chunkAccepted (.num (-3)) = false ∧
    chunkAccepted .nan = false ∧
    chunkAccepted .infinity = false := by
  refine ⟨by norm_num [chunkAccepted], ?_, by norm_num [chunkAccepted],
    by norm_num [chunkAccepted], rfl, rfl⟩
  intro hpi
  have hden : (1 / 2 : ℚ).den = 1 := hpi.2
  norm_num at hden

/-! ## C8: canonicalization of non-finite numbers -/

/-- C8 counterexample: `stableStringify` does not fail on the non-finite
number `NaN`; it silently serializes it as the text `null`
(`JSON.stringify(NaN) === "null"`), with no `CanonicalizationError`. -/
theorem c8_nonfinite_counterexample :
    stableStringify (Json.num JsNumber.nan) = "null" := by
  simp [stableStringify, renderNumber]

/-- C8 amended: `stableStringify` performs no validation; it is total.  A
non-finite number (`NaN`, `Infinity`, `-Infinity`) is serialized as the
text `null` with no error, by both serializers.  (Cyclic structures are
likewise not detected — the source recurses into them unboundedly; cycles
are not representable in this inductive model.) -/
theorem c8_nonfinite_amended (n : JsNumber) (h : n.isFinite = false) :
    stableStringify (Json.num n) = "null" ∧
    jsonStringify (Json.num n) = "null" := by
  cases n with
  | int k => simp [JsNumber.isFinite] at h
  | nan => exact ⟨by simp [stableStringify, renderNumber], rfl⟩
  | infinity => exact ⟨by simp [stableStringify, renderNumber], rfl⟩
  | negInfinity => exact ⟨by simp [stableStringify, renderNumber], rfl⟩

/-- C8 witness: the amended statement at `NaN`. -/
theorem c8_nonfinite_witness :
    stableStringify (Json.num JsNumber.nan) = "null" ∧
    jsonStringify (Json.num JsNumber.nan) = "null" :=
  c8_nonfinite_amended JsNumber.nan rfl

/-! ## C6: deterministic sampling policy -/

/-- `Array.from(new Set(l))` preserves membership. -/
theorem mem_jsSetDedup (l : List Nat) (i : Nat) :
    i ∈ jsSetDedup l ↔ i ∈ l := by
  have key : ∀ (m : List Nat) (acc : List Nat),
      (i ∈ m.foldl (fun acc j => if j ∈ acc then acc else acc ++ [j]) acc ↔
        i ∈ acc ∨ i ∈ m) := by
    intro m
    induction m with
    | nil => simp
    | cons a tl ih =>
      intro acc
      simp only [List.foldl_cons, ih, List.mem_cons]
      by_cases ha : a ∈ acc
      · simp only [ha, if_true]
        constructor
        · tauto
        · rintro (h | h | h) <;> simp_all
      · simp only [ha, if_false, List.mem_append, List.mem_singleton]
        tauto
  simpa [jsSetDedup] using key l []

/-- Every sampled index is in range. -/
theorem sampleIndices_lt {n i : Nat} (h : i ∈ sampleIndices n) : i < n := by
  simp only [sampleIndices, mem_jsSetDedup, List.mem_filter,
    decide_eq_true_eq] at h
  exact h.2

/-- C6: for `n > 0` the sampled indices are exactly
`{0, ⌊n/4⌋, ⌊n/2⌋, ⌊3n/4⌋, n-1}`; for `n = 0` none are produced; for
`n = 100` the list is `[0, 25, 50, 75, 99]`; and the attest branch maps
each sampled index to its inclusion proof together with its
self-verification flag — every sampled index yields a proof. -/
theorem c6_sampling :
    (∀ n : Nat, 0 < n → ∀ i : Nat,
      (i ∈ sampleIndices n ↔
        (i = 0 ∨ i = n / 4 ∨ i = n / 2 ∨ i = 3 * n / 4 ∨ i = n - 1))) ∧
    sampleIndices 0 = [] ∧
    sampleIndices 100 = [0, 25, 50, 75, 99] ∧
    (∀ (h : Bytes → Bytes) (leafHexes : List String) (rootHex : String),
      sampledProofs h leafHexes rootHex =
        (sampleIndices leafHexes.length).map (fun i =>
          (merkleProof h leafHexes i).map (fun p =>
            { index := p.index, leaf_hex := p.leaf_hex,
              siblings_hex := p.siblings_hex,
              verifies := verifyProof h rootHex p })) ∧
      ∀ o ∈ sampledProofs h leafHexes rootHex, o.isSome = true) := by
  refine ⟨?_, by decide, by decide, ?_⟩
  · intro n hn i
    have h4 : n / 4 < n := Nat.div_lt_self hn (by omega)
    have h2 : n / 2 < n := Nat.div_lt_self hn (by omega)
    have h34 : 3 * n / 4 < n := by
      rw [Nat.div_lt_iff_lt_mul (by omega : 0 < 4)]
      omega
    simp only [sampleIndices, mem_jsSetDedup, List.mem_filter,
      decide_eq_true_eq, List.mem_cons, List.mem_singleton,
      List.not_mem_nil, or_false, Nat.zero_max]
    constructor
    · rintro ⟨hmem, _⟩
      tauto
    · intro hcases
      refine ⟨by tauto, ?_⟩
      rcases hcases with rfl | rfl | rfl | rfl | rfl <;> omega
  · intro h leafHexes rootHex
    refine ⟨rfl, ?_⟩
    intro o ho
    simp only [sampledProofs, List.mem_map] at ho
    obtain ⟨i, hi, rfl⟩ := ho
    have hlt : i < leafHexes.length := sampleIndices_lt hi
    simp only [merkleProof]
    have h0 : ¬ leafHexes.length = 0 := by omega
    have h1 : ¬ leafHexes.length ≤ i := by omega
    simp [h0, h1]

/-- C6 witness: the characterization applied at `n = 100`, `i = 25`. -/
theorem c6_sampling_witness :
    25 ∈ sampleIndices 100 ↔
      (25 = 0 ∨ 25 = 100 / 4 ∨ 25 = 100 / 2 ∨ 25 = 3 * 100 / 4 ∨
        25 = 100 - 1) :=
  c6_sampling.1 100 (by norm_num) 25

/-! ## Serializer lemmas -/

/-- Mapping a function over `attach` forgets the membership proofs. -/
theorem attach_map_fn {α β : Type _} (l : List α) (f : α → β) :
    l.attach.map (fun x => f x.1) = l.map f := by
  simp

/-- `jsonStringifyList` is the elementwise serialization. -/
theorem jsonStringifyList_eq :
    ∀ l : List Json, jsonStringifyList l = l.map jsonStringify
  | [] => rfl
  | x :: xs => by simp [jsonStringifyList, jsonStringifyList_eq xs]

/-- `jsonStringifyFields` is the fieldwise serialization. -/
theorem jsonStringifyFields_eq :
    ∀ l : List (String × Json), jsonStringifyFields l
      = l.map (fun kv => jsonQuote kv.1 ++ ":" ++ jsonStringify kv.2)
  | [] => rfl
  | (k, v) :: xs => by
    simp [jsonStringifyFields, jsonStringifyFields_eq xs]

/-- `sortJsonList` is the elementwise normalization. -/
theorem sortJsonList_eq : ∀ l : List Json, sortJsonList l = l.map sortJson
  | [] => rfl
  | x :: xs => by simp [sortJsonList, sortJsonList_eq xs]

/-- `sortJsonFields` is the valuewise normalization. -/
theorem sortJsonFields_eq :
    ∀ l : List (String × Json),
      sortJsonFields l = l.map (fun kv => (kv.1, sortJson kv.2))
  | [] => rfl
  | (k, v) :: xs => by simp [sortJsonFields, sortJsonFields_eq xs]

/-- `insertField` commutes with mapping over values (the comparison reads
only keys). -/
theorem insertField_map {α β : Type _} (g : α → β) (kv : String × α) :
    ∀ l : List (String × α),
      insertField (kv.1, g kv.2) (l.map (fun x => (x.1, g x.2)))
        = (insertField kv l).map (fun x => (x.1, g x.2))
  | [] => rfl
  | x :: xs => by
    by_cases hle : keyLe kv.1 x.1 <;>
      simp [insertField, hle, insertField_map g kv xs]

/-- `sortFields` commutes with mapping over values. -/
theorem sortFields_map {α β : Type _} (g : α → β) :
    ∀ l : List (String × α),
      sortFields (l.map (fun x => (x.1, g x.2)))
        = (sortFields l).map (fun x => (x.1, g x.2))
  | [] => rfl
  | kv :: xs => by
    simp only [List.map_cons, sortFields, sortFields_map g xs,
      insertField_map g kv (sortFields xs)]

/-- `stableStringify` is `jsonStringify` after recursively sorting all
object fields. -/
theorem stableStringify_eq_sortJson (j : Json) :
    stableStringify j = jsonStringify (sortJson j) := by
  suffices h : ∀ (n : Nat) (j : Json), sizeOf j < n →
      stableStringify j = jsonStringify (sortJson j) from
    h (sizeOf j + 1) j (by omega)
  intro n
  induction n with
  | zero => intro j hj; omega
  | succ n ih =>
    intro j hj
    cases j with
    | null => simp [stableStringify, jsonStringify, sortJson]
    | bool b => simp [stableStringify, jsonStringify, sortJson]
    | num m => simp [stableStringify, jsonStringify, sortJson]
    | str s => simp [stableStringify, jsonStringify, sortJson]
    | arr elems =>
      have hsub : ∀ e ∈ elems, sizeOf e < n := by
        intro e he
        have := List.sizeOf_lt_of_mem he
        simp only [Json.arr.sizeOf_spec] at hj
        omega
      simp only [stableStringify, jsonStringify, sortJson,
        attach_map_fn elems stableStringify, sortJsonList_eq,
        jsonStringifyList_eq, List.map_map]
      refine congrArg (fun l => "[" ++ String.intercalate "," l ++ "]") ?_
      refine List.map_congr_left (fun e he => ?_)
      simpa [Function.comp] using ih e (hsub e he)
    | obj fields =>
      have hsub : ∀ kv ∈ fields, sizeOf kv.2 < n := by
        intro kv hkv
        have h1 := List.sizeOf_lt_of_mem hkv
        obtain ⟨k, v⟩ := kv
        simp only [Json.obj.sizeOf_spec, Prod.mk.sizeOf_spec] at hj h1 ⊢
        omega
      simp only [stableStringify, jsonStringify, sortJson, sortJsonFields_eq,
        sortFields_map sortJson fields, jsonStringifyFields_eq, List.map_map,
        attach_map_fn (sortFields fields)
          (fun kv => jsonQuote kv.1 ++ ":" ++ stableStringify kv.2)]
      refine congrArg (fun l => "\x7b" ++ String.intercalate "," l ++ "\x7d") ?_
      refine List.map_congr_left (fun kv hkv => ?_)
      have hmem : kv ∈ fields := (mem_sortFields kv fields).mp hkv
      simp only [Function.comp]
      rw [ih kv.2 (hsub kv hmem)]

/-- On values whose fields are already key-sorted at every level, the two
serializers agree. -/
theorem jsonStringify_eq_stable_of_sorted {j : Json} (hs : KeysSorted j) :
    jsonStringify j = stableStringify j := by
  induction hs with
  | null => simp [stableStringify, jsonStringify]
  | bool b => simp [stableStringify, jsonStringify]
  | num m => simp [stableStringify, jsonStringify]
  | str s => simp [stableStringify, jsonStringify]
  | arr elems hmem ih =>
    simp only [jsonStringify, stableStringify, jsonStringifyList_eq,
      attach_map_fn elems stableStringify]
    refine congrArg (fun l => "[" ++ String.intercalate "," l ++ "]") ?_
    exact List.map_congr_left ih
  | obj fields hsort hmem ih =>
    simp only [jsonStringify, stableStringify, jsonStringifyFields_eq, hsort,
      attach_map_fn (sortFields fields)
        (fun kv => jsonQuote kv.1 ++ ":" ++ stableStringify kv.2)]
    refine congrArg (fun l => "\x7b" ++ String.intercalate "," l ++ "\x7d") ?_
    refine List.map_congr_left (fun kv hkv => ?_)
    rw [ih kv hkv]

/-- `keyLt` is irreflexive. -/
theorem keyLt_irrefl : ∀ a : List Char, keyLt a a = false
  | [] => rfl
  | c :: cs => by simp [keyLt, lt_irrefl, keyLt_irrefl cs]

/-- `keyLt` is asymmetric. -/
theorem keyLt_asymm : ∀ a b : List Char, keyLt a b = true → keyLt b a = false
  | [], [] => by simp [keyLt]
  | [], _ :: _ => by intro _; simp [keyLt]
  | _ :: _, [] => by simp [keyLt]
  | c :: cs, d :: ds => by
    intro h
    simp only [keyLt] at h ⊢
    by_cases hcd : c < d
    · simp [hcd, lt_asymm hcd]
    · by_cases hdc : d < c
      · simp [hcd, hdc] at h
      · simp only [hcd, hdc, if_false] at h ⊢
        exact keyLt_asymm cs ds h

/-- Unordered character lists are equal. -/
theorem keyLt_connex :
    ∀ a b : List Char, keyLt a b = false → keyLt b a = false → a = b
  | [], [] => by intro _ _; rfl
  | [], _ :: _ => by intro h _; simp [keyLt] at h
  | _ :: _, [] => by intro _ h; simp [keyLt] at h
  | c :: cs, d :: ds => by
    intro h1 h2
    by_cases hcd : c < d
    · simp [keyLt, hcd] at h1
    · by_cases hdc : d < c
      · simp [keyLt, hdc] at h2
      · have hc : c = d := le_antisymm (le_of_not_lt hdc) (le_of_not_lt hcd)
        subst hc
        simp only [keyLt, lt_irrefl, if_false] at h1 h2
        rw [keyLt_connex cs ds h1 h2]

/-- `keyLt` is transitive. -/
theorem keyLt_trans :
    ∀ (a : List Char) (b c : List Char), keyLt a b = true → keyLt b c = true →
      keyLt a c = true
  | [], b, c => by
    intro h1 h2
    cases b with
    | nil => simp [keyLt] at h1
    | cons y ys =>
      cases c with
      | nil => simp [keyLt] at h2
      | cons z zs => simp [keyLt]
  | x :: xs, b, c => by
    intro h1 h2
    cases b with
    | nil => simp [keyLt] at h1
    | cons y ys =>
      cases c with
      | nil => simp [keyLt] at h2
      | cons z zs =>
        simp only [keyLt] at h1 h2 ⊢
        by_cases hxy : x < y
        · by_cases hyz : y < z
          · simp [lt_trans hxy hyz]
          · by_cases hzy : z < y
            · simp [hyz, hzy] at h2
            · have hz : y = z := le_antisymm (le_of_not_lt hzy) (le_of_not_lt hyz)
              subst hz
              simp [hxy]
        · by_cases hyx : y < x
          · simp [hxy, hyx] at h1
          · have hy : x = y := le_antisymm (le_of_not_lt hyx) (le_of_not_lt hxy)
            subst hy
            simp only [lt_irrefl, if_false] at h1
            by_cases hxz : x < z
            · simp [hxz]
            · by_cases hzx : z < x
              · simp [hxz, hzx] at h2
              · have hz : x = z := le_antisymm (le_of_not_lt hzx) (le_of_not_lt hxz)
                subst hz
                simp only [lt_irrefl, if_false] at h2 ⊢
                exact keyLt_trans xs ys zs h1 h2

/-- Insertions of fields with distinct keys commute. -/
theorem insertField_comm {α : Type _} {a b : String × α} (hne : a.1 ≠ b.1) :
    ∀ l : List (String × α),
      insertField a (insertField b l) = insertField b (insertField a l) := by
  have hdata : a.1.data ≠ b.1.data := by
    intro h
    apply hne
    cases ha : a.1
    cases hb : b.1
    simp only [ha, hb] at h
    simp [h]
  have hdichot : keyLt a.1.data b.1.data = true ↔ keyLt b.1.data a.1.data = false := by
    constructor
    · exact keyLt_asymm _ _
    · intro hq
      by_cases hp : keyLt a.1.data b.1.data = true
      · exact hp
      · exact absurd (keyLt_connex _ _ (Bool.not_eq_true _ ▸ hp) hq) hdata
  intro l
  induction l with
  | nil =>
    simp only [insertField, keyLe]
    by_cases hq : keyLt b.1.data a.1.data
    · have hp : keyLt a.1.data b.1.data = false := keyLt_asymm _ _ hq
      simp [hp, hq]
    · have hp : keyLt a.1.data b.1.data = true :=
        hdichot.mpr (Bool.not_eq_true _ ▸ hq)
      simp [hp, hq]
  | cons x l ih =>
    by_cases hxa : keyLt x.1.data a.1.data <;>
      by_cases hxb : keyLt x.1.data b.1.data
    · -- both move past x; inductive hypothesis
      simp [insertField, keyLe, hxa, hxb, ih]
    · -- b stops at x, a moves past x, so b comes first
      have hp : keyLt a.1.data b.1.data = false := by
        by_cases hp' : keyLt a.1.data b.1.data = true
        · exact absurd (keyLt_trans _ _ _ hxa hp') (by simp [hxb])
        · exact Bool.not_eq_true _ ▸ hp'
      have hq : keyLt b.1.data a.1.data = true := by
        by_cases hq' : keyLt b.1.data a.1.data = true
        · exact hq'
        · exact absurd (keyLt_connex _ _ hp (Bool.not_eq_true _ ▸ hq')) hdata
      simp [insertField, keyLe, hxa, hxb, hp, hq]
    · -- a stops at x, b moves past x, so a comes first
      have hq : keyLt b.1.data a.1.data = false := by
        by_cases hq' : keyLt b.1.data a.1.data = true
        · exact absurd (keyLt_trans _ _ _ hxb hq') (by simp [hxa])
        · exact Bool.not_eq_true _ ▸ hq'
      have hp : keyLt a.1.data b.1.data = true := hdichot.mpr hq
      simp [insertField, keyLe, hxa, hxb, hp, hq]
    · -- both stop at x; the dichotomy decides the order
      by_cases hq : keyLt b.1.data a.1.data
      · have hp : keyLt a.1.data b.1.data = false := keyLt_asymm _ _ hq
        simp [insertField, keyLe, hxa, hxb, hp, hq]
      · have hp : keyLt a.1.data b.1.data = true :=
          hdichot.mpr (Bool.not_eq_true _ ▸ hq)
        have hq' : keyLt b.1.data a.1.data = false := Bool.not_eq_true _ ▸ hq
        simp [insertField, keyLe, hxa, hxb, hp, hq']

/-- `SameMap`-related values have the same sorted normalization. -/
theorem sameMap_sortJson {a b : Json} (h : SameMap a b) :
    sortJson a = sortJson b := by
  induction h with
  | null => rfl
  | bool b => rfl
  | num n => rfl
  | str s => rfl
  | arrNil => rfl
  | arrCons h1 h2 ih1 ih2 =>
    rename_i x y xs ys
    have h' : sortJsonList xs = sortJsonList ys := by
      simpa only [sortJson, Json.arr.injEq] using ih2
    simp only [sortJson, sortJsonList, ih1, h']
  | objNil => rfl
  | objCons h1 h2 ih1 ih2 =>
    rename_i k v w fs gs
    have h' : sortFields (sortJsonFields fs) = sortFields (sortJsonFields gs) := by
      simpa only [sortJson, Json.obj.injEq] using ih2
    simp only [sortJson, sortJsonFields, sortFields, ih1, h']
  | objSwap hne =>
    rename_i p q fs
    obtain ⟨pk, pv⟩ := p
    obtain ⟨qk, qv⟩ := q
    simp only [sortJson, sortJsonFields, sortFields, Json.obj.injEq]
    exact insertField_comm (by simpa using hne) (sortFields (sortJsonFields fs))
  | trans h1 h2 ih1 ih2 => exact ih1.trans ih2

/-! ## C2: the attest digests and canonical JSON -/

set_option maxRecDepth 100000 in
/-- C2 counterexample: in the attest branch both `manifest_sha512` and
`signed_message_sha512` are digests of `JSON.stringify` output, whose
field order is insertion order; for the manifest and signed payload the
code builds (keys `schema, engine, run, subject, environment` and
`schema, manifest_sha512, file_digests, merkle`) that string differs from
the canonical (key-sorted) JSON, so — taking the digest function itself as
the identity to expose the digested bytes — the digest is not the digest
of the canonical JSON. -/
theorem c2_canonical_counterexample :
    attestManifestSha512 (fun s => s) manifestExample
        ≠ (fun s => s) (stableStringify manifestExample) ∧
    attestSignedMessageSha512 (fun s => s) signedPayloadExample
        ≠ (fun s => s) (stableStringify signedPayloadExample) := by
  rw [stableStringify_eq_sortJson manifestExample,
    stableStringify_eq_sortJson signedPayloadExample]
  exact ⟨by decide, by decide⟩

/-- C2 amended: the attest digests are SHA-512 of the `JSON.stringify`
serialization of the manifest and of the `SignedPayload` — no whitespace
and arrays in order, but object keys in insertion order, not sorted.  The
digest input coincides with the canonical (key-sorted, whitespace-free)
JSON exactly when every object's keys are already sorted; the objects the
attest branch builds are not. -/
theorem c2_digest_inputs (sha512hex : String → String) (manifest payload : Json) :
    attestManifestSha512 sha512hex manifest
        = sha512hex (jsonStringify manifest) ∧
    attestSignedMessageSha512 sha512hex payload
        = sha512hex (jsonStringify payload) ∧
    (KeysSorted manifest → attestManifestSha512 sha512hex manifest
        = sha512hex (stableStringify manifest)) ∧
    (KeysSorted payload → attestSignedMessageSha512 sha512hex payload
        = sha512hex (stableStringify payload)) := by
  refine ⟨rfl, rfl, ?_, ?_⟩
  · intro hs
    simp only [attestManifestSha512, jsonStringify_eq_stable_of_sorted hs]
  · intro hs
    simp only [attestSignedMessageSha512, jsonStringify_eq_stable_of_sorted hs]

/-- C2 witness: the amended statement at a key-sorted object and the
identity digest. -/
theorem c2_digest_inputs_witness :
    attestManifestSha512 (fun s => s) (Json.obj [("a", Json.num (JsNumber.int 1))])
      = (fun s => s) (stableStringify (Json.obj [("a", Json.num (JsNumber.int 1))])) :=
  (c2_digest_inputs (fun s => s) (Json.obj [("a", Json.num (JsNumber.int 1))])
    Json.null).2.2.1
    (KeysSorted.obj _ rfl (by
      intro kv hkv
      simp only [List.mem_singleton] at hkv
      exact hkv ▸ KeysSorted.num (JsNumber.int 1)))

/-! ## C10: order independence of `stableStringify`, `hashJSON` and
`createReceipt` -/

/-- C10: values denoting the same finite map at every object node have
identical `stableStringify` output; consequently `hashJSON` and the
`receipt_hash` computed by `createReceipt` do not depend on object key
insertion order. -/
theorem c10_stable_stringify_order_independent :
    (∀ a b : Json, SameMap a b → stableStringify a = stableStringify b) ∧
    (∀ (sha256hex : String → String) (a b : Json), SameMap a b →
      hashJSON sha256hex a = hashJSON sha256hex b) ∧
    (∀ (sha256hex : String → String) (d1 d2 : List (String × Json)),
      SameMap (.obj (("receipt_version", Json.str "1") :: d1))
        (.obj (("receipt_version", Json.str "1") :: d2)) →
      (createReceipt sha256hex d1).2 = (createReceipt sha256hex d2).2) := by
  have base : ∀ a b : Json, SameMap a b →
      stableStringify a = stableStringify b := by
    intro a b h
    rw [stableStringify_eq_sortJson, stableStringify_eq_sortJson,
      sameMap_sortJson h]
  refine ⟨base, ?_, ?_⟩
  · intro sha a b h
    simp only [hashJSON, base a b h]
  · intro sha d1 d2 h
    simp only [createReceipt, hashJSON, base _ _ h]

/-- C10 witness: two two-field objects with swapped field order. -/
theorem c10_order_independent_witness :
    stableStringify (Json.obj [("b", Json.null), ("a", Json.num (JsNumber.int 2))])
      = stableStringify (Json.obj [("a", Json.num (JsNumber.int 2)), ("b", Json.null)]) :=
  c10_stable_stringify_order_independent.1 _ _ (SameMap.objSwap (by decide))

/-! ## Chunking lemmas -/

/-- No full chunk fits in an empty buffer. -/
theorem fullChunks_nil (cs : Nat) : fullChunks cs [] = [] := by
  rw [fullChunks]
  simp
  omega

/-- The empty buffer is its own remainder. -/
theorem chunkRest_nil (cs : Nat) : chunkRest cs [] = [] := by
  rw [chunkRest]
  simp
  omega

/-- The drain loop emits the digests of the full chunks and keeps the
remainder. -/
theorem drainChunks_eq (h : Bytes → Bytes) (cs : Nat) (hcs : 0 < cs)
    (buf : Bytes) :
    drainChunks h cs buf
      = ((fullChunks cs buf).map (fun ch => bytesToHex (h ch)),
         chunkRest cs buf) := by
  by_cases hle : cs ≤ buf.length
  · have ih := drainChunks_eq h cs hcs (buf.drop cs)
    rw [drainChunks, fullChunks, chunkRest]
    simp [hcs, hle, ih]
  · rw [drainChunks, fullChunks, chunkRest]
    simp [hle]
termination_by buf.length
decreasing_by simp only [List.length_drop]; omega

/-- Full chunks and remainder compose over appending fresh bytes to a
partially drained stream. -/
theorem chunk_append (cs : Nat) (hcs : 0 < cs) (y c : Bytes) :
    fullChunks cs (y ++ c)
        = fullChunks cs y ++ fullChunks cs (chunkRest cs y ++ c) ∧
    chunkRest cs (y ++ c) = chunkRest cs (chunkRest cs y ++ c) := by
  by_cases hle : cs ≤ y.length
  · have ih := chunk_append cs hcs (y.drop cs) c
    have ht : (y ++ c).take cs = y.take cs := List.take_append_of_le_length hle
    have hd : (y ++ c).drop cs = y.drop cs ++ c := List.drop_append_of_le_length hle
    have hlen : cs ≤ y.length + c.length := by omega
    constructor
    · rw [fullChunks]
      rw [show fullChunks cs y = y.take cs :: fullChunks cs (y.drop cs) by
        rw [fullChunks]; simp [hcs, hle]]
      rw [show chunkRest cs y = chunkRest cs (y.drop cs) by
        rw [chunkRest]; simp [hcs, hle]]
      simp [hcs, hlen, List.length_append, ht, hd, ih.1]
    · rw [chunkRest]
      rw [show chunkRest cs y = chunkRest cs (y.drop cs) by
        rw [chunkRest]; simp [hcs, hle]]
      simp [hcs, hlen, List.length_append, hd, ih.2]
  · have h1 : fullChunks cs y = [] := by rw [fullChunks]; simp [hle]
    have h2 : chunkRest cs y = y := by rw [chunkRest]; simp [hle]
    simp [h1, h2]
termination_by y.length
decreasing_by simp only [List.length_drop]; omega

/-- Invariant of the `data`-event fold: after consuming a prefix `y` of
the stream, the state holds the digests of the full chunks of `y`, the
remainder as its buffer, and the byte and chunk counters of `y`. -/
theorem foldl_processData_inv (h : Bytes → Bytes) (cs : Nat) (hcs : 0 < cs) :
    ∀ (reads : List Bytes) (y : Bytes) (st : FingerState),
      st.leafHexes = (fullChunks cs y).map (fun ch => bytesToHex (h ch)) →
      st.buf = chunkRest cs y →
      st.bytes = y.length →
      st.chunks = (fullChunks cs y).length →
      ((reads.foldl (processData h cs) st).leafHexes
          = (fullChunks cs (y ++ reads.flatten)).map
              (fun ch => bytesToHex (h ch)) ∧
        (reads.foldl (processData h cs) st).buf
          = chunkRest cs (y ++ reads.flatten) ∧
        (reads.foldl (processData h cs) st).bytes
          = (y ++ reads.flatten).length ∧
        (reads.foldl (processData h cs) st).chunks
          = (fullChunks cs (y ++ reads.flatten)).length)
  | [], y, st => by
    intro h1 h2 h3 h4
    simp [h1, h2, h3, h4]
  | r :: rs, y, st => by
    intro h1 h2 h3 h4
    have happ := chunk_append cs hcs y r
    have hL' : (processData h cs st r).leafHexes
        = (fullChunks cs (y ++ r)).map (fun ch => bytesToHex (h ch)) := by
      simp [processData, drainChunks_eq h cs hcs, h1, h2, happ.1]
    have hB' : (processData h cs st r).buf = chunkRest cs (y ++ r) := by
      simp [processData, drainChunks_eq h cs hcs, h2, happ.2]
    have hBy' : (processData h cs st r).bytes = (y ++ r).length := by
      simp [processData, h3]
    have hC' : (processData h cs st r).chunks
        = (fullChunks cs (y ++ r)).length := by
      simp [processData, drainChunks_eq h cs hcs, h2, h4, happ.1]
    have ih := foldl_processData_inv h cs hcs rs (y ++ r)
      (processData h cs st r) hL' hB' hBy' hC'
    simpa [List.append_assoc] using ih

/-- The chunk decomposition is the full chunks followed by the nonempty
remainder. -/
theorem listChunks_decomp (cs : Nat) (hcs : 0 < cs) (x : Bytes) :
    listChunks cs x = fullChunks cs x ++
      (if chunkRest cs x = [] then [] else [chunkRest cs x]) := by
  by_cases hle : cs ≤ x.length
  · have ih := listChunks_decomp cs hcs (x.drop cs)
    have hne : x ≠ [] := by
      intro hx
      rw [hx] at hle
      simp at hle
      omega
    rw [listChunks, fullChunks, chunkRest]
    simp [hcs, hle, hne, ih]
  · by_cases hx : x = []
    · subst hx
      rw [listChunks]
      simp [fullChunks_nil, chunkRest_nil]
    · have ht : x.take cs = x := List.take_of_length_le (by omega)
      have hd : x.drop cs = [] := List.drop_eq_nil_of_le (by omega)
      rw [listChunks, fullChunks, chunkRest]
      simp [hcs, hle, hx, ht, hd, listChunks]
termination_by x.length
decreasing_by simp only [List.length_drop]; omega

/-- The number of chunks is the length divided by the chunk size, rounded
up. -/
theorem listChunks_length (cs : Nat) (hcs : 0 < cs) (x : Bytes) :
    (listChunks cs x).length = (x.length + cs - 1) / cs := by
  by_cases hx : x = []
  · subst hx
    rw [listChunks]
    simp [Nat.div_eq_of_lt (by omega : cs - 1 < cs)]
  · have hpos : 0 < x.length := List.length_pos.mpr hx
    have e1 : x.length + cs - 1 = (x.length - 1) + cs := by omega
    rw [listChunks, dif_pos ⟨hcs, hx⟩]
    simp only [List.length_cons]
    by_cases hle : cs ≤ x.length
    · have ih := listChunks_length cs hcs (x.drop cs)
      rw [List.length_drop] at ih
      have e5 : x.length - cs + cs - 1 = x.length - 1 := by omega
      rw [ih, e5, e1, Nat.add_div_right _ hcs]
    · have hd : x.drop cs = [] := List.drop_eq_nil_of_le (by omega)
      rw [hd]
      rw [show listChunks cs ([] : Bytes) = [] from by rw [listChunks]; simp]
      simp only [List.length_nil, Nat.zero_add]
      rw [e1, Nat.add_div_right _ hcs,
        Nat.div_eq_of_lt (by omega : x.length - 1 < cs)]
termination_by x.length
decreasing_by simp only [List.length_drop]; omega

/-- The reported `leaf_count` is always the number of leaves. -/
theorem merkleRootFromLeafHex_leaf_count (h : Bytes → Bytes)
    (l : List String) : (merkleRootFromLeafHex h l).leaf_count = l.length := by
  unfold merkleRootFromLeafHex
  split <;> simp_all

/-! ## C3: the streaming fingerprinter -/

/-- C3: for every read partition of the byte stream and every positive
chunk size, the fingerprinter's leaves are the digests of the successive
chunks of the stream in order; `leaf_count` is `⌈len/chunk_size⌉` for a
non-empty stream and `0` for the empty stream; and a stream shorter than
the chunk size yields exactly one leaf covering all of it. -/
theorem c3_fingerprinter (hb2b hsha : Bytes → Bytes) (reads : List Bytes)
    (cs : Nat) (hcs : 0 < cs) :
    (streamDigestsAndLeaves hb2b hsha reads cs).leaf_hexes
        = (listChunks cs reads.flatten).map (fun ch => bytesToHex (hb2b ch)) ∧
    (reads.flatten ≠ [] →
      (streamDigestsAndLeaves hb2b hsha reads cs).merkle.leaf_count
        = (reads.flatten.length + cs - 1) / cs) ∧
    (reads.flatten = [] →
      (streamDigestsAndLeaves hb2b hsha reads cs).merkle.leaf_count = 0) ∧
    (reads.flatten ≠ [] → reads.flatten.length < cs →
      (streamDigestsAndLeaves hb2b hsha reads cs).leaf_hexes
        = [bytesToHex (hb2b reads.flatten)]) := by
  obtain ⟨hL, hB, _, _⟩ := foldl_processData_inv hb2b cs hcs reads []
    initFingerState (by simp [initFingerState, fullChunks_nil])
    (by simp [initFingerState, chunkRest_nil])
    (by simp [initFingerState]) (by simp [initFingerState, fullChunks_nil])
  simp only [List.nil_append] at hL hB
  set st := reads.foldl (processData hb2b cs) initFingerState with hst
  have hleaf : (streamDigestsAndLeaves hb2b hsha reads cs).leaf_hexes
      = (listChunks cs reads.flatten).map (fun ch => bytesToHex (hb2b ch)) := by
    show (finalizeStream hb2b st).leafHexes = _
    rw [listChunks_decomp cs hcs reads.flatten]
    unfold finalizeStream
    by_cases hbuf : st.buf.length = 0
    · have hrest : chunkRest cs reads.flatten = [] := by
        rw [← hB]
        exact List.length_eq_zero.mp hbuf
      simp [hbuf, hL, hrest]
    · have hrest : chunkRest cs reads.flatten ≠ [] := by
        rw [← hB]
        intro hc
        exact hbuf (by simp [hc])
      simp [hbuf, hL, hB, hrest]
  refine ⟨hleaf, ?_, ?_, ?_⟩
  · intro hne
    show (merkleRootFromLeafHex hb2b
      (streamDigestsAndLeaves hb2b hsha reads cs).leaf_hexes).leaf_count = _
    rw [merkleRootFromLeafHex_leaf_count, hleaf, List.length_map,
      listChunks_length cs hcs]
  · intro hnil
    show (merkleRootFromLeafHex hb2b
      (streamDigestsAndLeaves hb2b hsha reads cs).leaf_hexes).leaf_count = _
    rw [merkleRootFromLeafHex_leaf_count, hleaf, List.length_map, hnil]
    rw [listChunks]
    simp
  · intro hne hshort
    rw [hleaf]
    have hfull : fullChunks cs reads.flatten = [] := by
      rw [fullChunks, dif_neg]
      rintro ⟨-, hc⟩
      omega
    have hrest : chunkRest cs reads.flatten = reads.flatten := by
      rw [chunkRest, dif_neg]
      rintro ⟨-, hc⟩
      omega
    rw [listChunks_decomp cs hcs, hfull, hrest]
    simp [hne]

/-- C3 witness: the fingerprinter over the stream `[1,2,3],[4,5]` with
chunk size 2. -/
theorem c3_fingerprinter_witness :
    (streamDigestsAndLeaves (fun x => [x.length]) (fun _ => [])
        [[1, 2, 3], [4, 5]] 2).leaf_hexes
      = (listChunks 2 ([[1, 2, 3], [4, 5]] : List Bytes).flatten).map
          (fun ch => bytesToHex ((fun x => [x.length]) ch)) :=
  (c3_fingerprinter (fun x => [x.length]) (fun _ => [])
    [[1, 2, 3], [4, 5]] 2 (by norm_num)).1

/-! ## Merkle inclusion-proof lemmas -/

/-- The combined node above position `idx` hashes the pair at `idx`'s
level, with the last odd node duplicated. -/
theorem combineLevel_getD (h : Bytes → Bytes) :
    ∀ (l : List Bytes) (idx : Nat), idx < l.length →
      (combineLevel h l).getD (idx / 2) []
        = if idx % 2 = 1 then h (l.getD (idx - 1) [] ++ l.getD idx [])
          else h (l.getD idx [] ++ l.getD (idx + 1) (l.getD idx []))
  | [], idx, hidx => by simp at hidx
  | [x], idx, hidx => by
    have hz : idx = 0 := by simp at hidx; omega
    subst hz
    simp [combineLevel, List.getD]
  | x :: y :: rest, idx, hidx => by
    match idx with
    | 0 => simp [combineLevel, List.getD]
    | 1 => simp [combineLevel, List.getD]
    | (n + 2) =>
      have hn : n < rest.length := by
        simp only [List.length_cons] at hidx
        omega
      have ih := combineLevel_getD h rest n hn
      have hdiv : (n + 2) / 2 = n / 2 + 1 := by omega
      have hmod : (n + 2) % 2 = n % 2 := by omega
      rw [hdiv, hmod]
      simp only [combineLevel, List.getD_cons_succ]
      by_cases hpar : n % 2 = 1
      · obtain ⟨m, rfl⟩ : ∃ m, n = m + 1 := ⟨n - 1, by omega⟩
        rw [if_pos hpar] at ih ⊢
        simpa [List.getD_cons_succ] using ih
      · rw [if_neg hpar] at ih ⊢
        simpa [List.getD_cons_succ] using ih

/-- The level stack always starts at the given level. -/
theorem buildLevelsFrom_cons (h : Bytes → Bytes) (lvl : List Bytes) :
    ∃ tl, buildLevelsFrom h lvl = lvl :: tl := by
  by_cases hl : lvl.length ≤ 1
  · exact ⟨[], by rw [buildLevelsFrom, if_pos hl]⟩
  · exact ⟨buildLevelsFrom h (combineLevel h lvl),
      by rw [buildLevelsFrom, if_neg hl]⟩

/-- Walking the recorded siblings upward from any leaf reconstructs the
root of the level loop. -/
theorem chainUp_proofSiblings_root (h : Bytes → Bytes) (level : List Bytes)
    (idx : Nat) (hidx : idx < level.length) :
    chainUp h (level.getD idx []) idx
        (proofSiblings h (buildLevelsFrom h level) idx)
      = merkleRootLevel h level := by
  by_cases hone : level.length ≤ 1
  · match level, hidx with
    | [x], hidx =>
      have hz : idx = 0 := by simp at hidx; omega
      subst hz
      rw [buildLevelsFrom]
      simp [proofSiblings, chainUp, merkleRootLevel, List.getD]
  · obtain ⟨tl, htl⟩ := buildLevelsFrom_cons h (combineLevel h level)
    have hstep : buildLevelsFrom h level
        = level :: combineLevel h level :: tl := by
      rw [buildLevelsFrom, if_neg hone, htl]
    have hclen : idx / 2 < (combineLevel h level).length := by
      rw [combineLevel_length]
      omega
    have hnode := combineLevel_getD h level idx hidx
    have ih := chainUp_proofSiblings_root h (combineLevel h level) (idx / 2)
      hclen
    rw [htl] at ih
    have hroot : merkleRootLevel h level
        = merkleRootLevel h (combineLevel h level) := by
      rw [merkleRootLevel, if_neg hone]
    rw [hstep, hroot, ← ih]
    simp only [proofSiblings, chainUp]
    by_cases hpar : idx % 2 = 1
    · rw [if_pos hpar] at hnode ⊢
      rw [if_pos hpar]
      congr 1
      have hrange : idx - 1 < level.length := by omega
      rw [hnode, List.getD_eq_getElem level (level.getD idx []) hrange,
        List.getD_eq_getElem level [] hrange]
    · rw [if_neg hpar] at hnode ⊢
      rw [if_neg hpar]
      congr 1
      exact hnode.symm
termination_by level.length
decreasing_by simp [combineLevel_length]; omega

/-- The verification fold is the byte-level chain over the decoded
siblings. -/
theorem verify_foldl_eq_chainUp (h : Bytes → Bytes) :
    ∀ (sibs : List String) (node : Bytes) (idx : Nat),
      (sibs.foldl (verifyStep h) (node, idx)).1
        = chainUp h node idx (sibs.map hexToBytes)
  | [], node, idx => rfl
  | s :: rest, node, idx => by
    simp only [List.foldl_cons, List.map_cons, chainUp, verifyStep]
    exact verify_foldl_eq_chainUp h rest _ _

/-- Decoding after encoding is the identity on lists of byte strings. -/
theorem map_decode_encode (sibs : List Bytes)
    (hs : ∀ s ∈ sibs, IsBytes s) :
    (sibs.map bytesToHex).map hexToBytes = sibs := by
  rw [List.map_map]
  have : sibs.map (hexToBytes ∘ bytesToHex) = sibs.map id :=
    List.map_congr_left (fun s hmem => hexToBytes_bytesToHex s (hs s hmem))
  rw [this, List.map_id]

/-- A default lookup in a list of byte strings is a byte string. -/
theorem getD_isBytes {nodes : List Bytes} {i : Nat} {d : Bytes}
    (hn : ∀ nd ∈ nodes, IsBytes nd) (hd : IsBytes d) :
    IsBytes (nodes.getD i d) := by
  rw [List.getD_eq_getElem?_getD]
  cases hg : nodes[i]? with
  | none => simpa [hg] using hd
  | some v =>
    have : v ∈ nodes := List.getElem?_mem hg
    simpa [hg] using hn v this

/-- Combined levels consist of hash outputs, hence of byte strings. -/
theorem isBytes_combineLevel (h : Bytes → Bytes)
    (Hh : ∀ x, IsBytes (h x)) :
    ∀ l : List Bytes, ∀ nd ∈ combineLevel h l, IsBytes nd
  | [], nd, hmem => by simp [combineLevel] at hmem
  | [x], nd, hmem => by
    simp only [combineLevel, List.mem_singleton] at hmem
    exact hmem ▸ Hh _
  | x :: y :: rest, nd, hmem => by
    simp only [combineLevel, List.mem_cons] at hmem
    rcases hmem with rfl | hmem
    · exact Hh _
    · exact isBytes_combineLevel h Hh rest nd hmem

/-- Every node of every level is a byte string, given byte-valued leaves
and a byte-valued hash. -/
theorem isBytes_buildLevelsFrom (h : Bytes → Bytes)
    (Hh : ∀ x, IsBytes (h x)) (lvl : List Bytes)
    (h0 : ∀ nd ∈ lvl, IsBytes nd) :
    ∀ L ∈ buildLevelsFrom h lvl, ∀ nd ∈ L, IsBytes nd := by
  by_cases hone : lvl.length ≤ 1
  · rw [buildLevelsFrom, if_pos hone]
    intro L hL
    simp only [List.mem_singleton] at hL
    exact hL ▸ h0
  · rw [buildLevelsFrom, if_neg hone]
    intro L hL
    simp only [List.mem_cons] at hL
    rcases hL with rfl | hL
    · exact h0
    · exact isBytes_buildLevelsFrom h Hh (combineLevel h lvl)
        (isBytes_combineLevel h Hh lvl) L hL
termination_by lvl.length
decreasing_by simp [combineLevel_length]; omega

/-- Every recorded sibling is a byte string. -/
theorem isBytes_proofSiblings (h : Bytes → Bytes) :
    ∀ (levels : List (List Bytes)) (idx : Nat),
      (∀ L ∈ levels, ∀ nd ∈ L, IsBytes nd) →
      ∀ s ∈ proofSiblings h levels idx, IsBytes s
  | [], idx, _, s, hmem => by simp [proofSiblings] at hmem
  | [L], idx, _, s, hmem => by simp [proofSiblings] at hmem
  | nodes :: next :: rest, idx, hlv, s, hmem => by
    simp only [proofSiblings, List.mem_cons] at hmem
    rcases hmem with rfl | hmem
    · have hn : ∀ nd ∈ nodes, IsBytes nd :=
        hlv nodes (List.mem_cons_self nodes _)
      exact getD_isBytes hn (getD_isBytes hn (by intro b hb; simp at hb))
    · exact isBytes_proofSiblings h (next :: rest) (idx / 2)
        (fun L hL => hlv L (List.mem_cons_of_mem nodes hL)) s hmem

/-! ## C1: generated inclusion proofs verify -/

/-- C1: for every non-empty leaf list and every in-range index, the
generated inclusion proof verifies against the computed root — for every
hash function with byte-string output, hence for BLAKE2b-512; odd-sized
levels take the duplication path of both the builder and the prover. -/
theorem c1_proof_verifies (h : Bytes → Bytes) (Hh : ∀ x, IsBytes (h x))
    (leaves : List String) (i : Nat) (hi : i < leaves.length) :
    ∃ p, merkleProof h leaves i = some p ∧
      verifyProof h (merkleRootFromLeafHex h leaves).root_hex p = true := by
  have hne : ¬ leaves.length = 0 := by omega
  have hp : merkleProof h leaves i = some
      { index := i
        leaf_hex := leaves.getD i ""
        siblings_hex :=
          (proofSiblings h (buildLevels h leaves) i).map bytesToHex } := by
    unfold merkleProof
    rw [if_neg hne, if_neg (by omega)]
  refine ⟨_, hp, ?_⟩
  have hlvl0 : ∀ nd ∈ leaves.map hexToBytes, IsBytes nd := by
    intro nd hnd
    simp only [List.mem_map] at hnd
    obtain ⟨s, _, rfl⟩ := hnd
    exact isBytes_hexToBytes s
  have hbuild : buildLevels h leaves
      = buildLevelsFrom h (leaves.map hexToBytes) := by
    unfold buildLevels
    rw [if_neg hne]
  have hsibs : ∀ s ∈ proofSiblings h (buildLevels h leaves) i, IsBytes s := by
    rw [hbuild]
    exact isBytes_proofSiblings h _ i
      (isBytes_buildLevelsFrom h Hh _ hlvl0)
  have hstart : hexToBytes (leaves.getD i "")
      = (leaves.map hexToBytes).getD i [] := by
    have hi' : i < (leaves.map hexToBytes).length := by simpa using hi
    rw [List.getD_eq_getElem leaves "" hi, List.getD_eq_getElem _ [] hi',
      List.getElem_map]
  show (bytesToHex
      (((proofSiblings h (buildLevels h leaves) i).map bytesToHex).foldl
        (verifyStep h) (hexToBytes (leaves.getD i ""), i)).1
    == (merkleRootFromLeafHex h leaves).root_hex) = true
  rw [verify_foldl_eq_chainUp, map_decode_encode _ hsibs, hstart, hbuild,
    chainUp_proofSiblings_root h (leaves.map hexToBytes) i (by simpa using hi)]
  unfold merkleRootFromLeafHex
  rw [if_neg hne]
  simp

/-- C1 witness: three leaves (odd level, duplication path) at index 2,
with a concrete byte-valued hash. -/
theorem c1_proof_verifies_witness :
    ∃ p, merkleProof (fun x => [x.length % 256]) ["aa", "bb", "cc"] 2 = some p ∧
      verifyProof (fun x => [x.length % 256])
        (merkleRootFromLeafHex (fun x => [x.length % 256])
          ["aa", "bb", "cc"]).root_hex p = true :=
  c1_proof_verifies (fun x => [x.length % 256])
    (fun x => by intro b hb; simp at hb; omega)
    ["aa", "bb", "cc"] 2 (by norm_num)

/-! ## Transparency-log parsing lemmas -/

/-- `split` never returns an empty group list. -/
theorem splitChar_ne_nil (sep : Char) : ∀ l : List Char, splitChar sep l ≠ []
  | [] => by simp [splitChar]
  | c :: rest => by
    simp only [splitChar]
    cases hs : splitChar sep rest with
    | nil => exact absurd hs (splitChar_ne_nil sep rest)
    | cons grp grps =>
      by_cases hc : c = sep <;> simp [hc]

/-- Splitting a separator-free list yields that one group. -/
theorem splitChar_no_sep (sep : Char) :
    ∀ l : List Char, sep ∉ l → splitChar sep l = [l]
  | [], _ => rfl
  | c :: rest, hmem => by
    have hc : ¬ c = sep := fun hc => hmem (hc ▸ List.mem_cons_self c rest)
    have hrest : sep ∉ rest := fun hr => hmem (List.mem_cons_of_mem c hr)
    simp only [splitChar, splitChar_no_sep sep rest hrest]
    simp [hc]

/-- Splitting past a separator-free prefix peels off that prefix. -/
theorem splitChar_append (sep : Char) :
    ∀ (g r : List Char), sep ∉ g →
      splitChar sep (g ++ sep :: r) = g :: splitChar sep r
  | [], r, _ => by
    simp only [List.nil_append, splitChar]
    cases hs : splitChar sep r with
    | nil => exact absurd hs (splitChar_ne_nil sep r)
    | cons grp grps => simp
  | c :: g, r, hmem => by
    have hc : ¬ c = sep := fun hc => hmem (hc ▸ List.mem_cons_self c g)
    have hg : sep ∉ g := fun hr => hmem (List.mem_cons_of_mem c hr)
    simp only [List.cons_append, splitChar, List.append_eq]
    rw [splitChar_append sep g r hg]
    simp [hc]

/-- Splitting the newline-joined bodies (without the final newline)
recovers the bodies. -/
theorem splitChar_joined (sep : Char) :
    ∀ bodies : List (List Char), bodies ≠ [] →
      (∀ b ∈ bodies, sep ∉ b) →
      splitChar sep ((bodies.map (fun b => b ++ [sep])).flatten).dropLast
        = bodies
  | [], hne, _ => absurd rfl hne
  | [b], _, hb => by
    have hsep : sep ∉ b := hb b (List.mem_singleton.mpr rfl)
    simp only [List.map_cons, List.map_nil, List.flatten_cons,
      List.flatten_nil, List.append_nil, List.dropLast_concat]
    exact splitChar_no_sep sep b hsep
  | b :: b' :: bodies, _, hb => by
    have hsep : sep ∉ b := hb b (List.mem_cons_self b _)
    have hrest := splitChar_joined sep (b' :: bodies) (by simp)
      (fun x hx => hb x (List.mem_cons_of_mem b hx))
    have hflat_ne : ((b' :: bodies).map (fun x => x ++ [sep])).flatten ≠ [] := by
      simp
    rw [List.map_cons, List.flatten_cons,
      List.dropLast_append_of_ne_nil _ hflat_ne, List.append_assoc,
      List.singleton_append, splitChar_append sep b _ hsep, hrest]

/-- Trimming content that starts with a non-space character and ends in a
single newline preceded by a non-space character removes exactly that
newline. -/
theorem jsTrim_eq_dropLast (l : List Char) (hl : l ≠ [])
    (hhead : ∀ c, l.head? = some c → ¬ c.isWhitespace)
    (hlast : l.getLast? = some '\n')
    (hprev : ∀ c, l.dropLast.getLast? = some c → ¬ c.isWhitespace) :
    jsTrim l = l.dropLast := by
  have h1 : l.dropWhile Char.isWhitespace = l := by
    cases l with
    | nil => rfl
    | cons c rest =>
      have := hhead c rfl
      simp [List.dropWhile_cons, this]
  have hdecomp : l.dropLast ++ ['\n'] = l := by
    have hcat := List.dropLast_concat_getLast hl
    rw [List.getLast?_eq_getLast l hl, Option.some_inj] at hlast
    rw [hlast] at hcat
    exact hcat
  unfold jsTrim
  rw [h1, ← hdecomp, List.reverse_append]
  simp only [List.reverse_cons, List.reverse_nil, List.nil_append,
    List.cons_append, List.dropWhile_cons]
  rw [if_pos (by simp [Char.isWhitespace])]
  cases hdl : l.dropLast with
  | nil => simp
  | cons d ds =>
    have hlastd : (d :: ds).getLast? ≠ none := by
      simp [List.getLast?_eq_getLast]
    cases hgl : (d :: ds).getLast? with
    | none => exact absurd hgl hlastd
    | some c =>
      have hnws : ¬ c.isWhitespace := by
        apply hprev
        rw [hdl, hgl]
      have hhd : (d :: ds).reverse.head? = some c := by
        rw [List.head?_reverse, hgl]
      cases hrv : (d :: ds).reverse with
      | nil => simp at hrv
      | cons e es =>
        rw [hrv] at hhd
        simp only [List.head?_cons, Option.some_inj] at hhd
        subst hhd
        rw [List.dropWhile_cons, if_neg (by simpa using hnws)]
        rw [← hrv]
        simp only [List.reverse_reverse, ← hdl]
        rw [List.dropLast_concat]

/-- The character content of a joined string list. -/
theorem join_data : ∀ ls : List String,
    (String.join ls).data = (ls.map String.data).flatten := by
  have key : ∀ (ls : List String) (acc : String),
      (ls.foldl (fun r s => r ++ s) acc).data
        = acc.data ++ (ls.map String.data).flatten := by
    intro ls
    induction ls with
    | nil => simp
    | cons s rest ih =>
      intro acc
      simp [ih (acc ++ s)]
  intro ls
  exact (key ls "").trans (by simp)

/-- The character content of one log line. -/
theorem logLine_data (t r p e : String) :
    (logLine t r p e).data
      = (t.data ++ ('\t' :: (r.data ++ ('\t' :: (p.data ++ ('\t' :: e.data))))))
        ++ ['\n'] := by
  simp [logLine]


/-- Joined line bodies decompose around the last body: the flattened
content is a prefix plus the last body plus its newline, and dropping the
final character drops exactly that newline. -/
theorem flatten_nl_decomp :
    ∀ bodies : List (List Char), bodies ≠ [] →
      ∃ pre bl : List Char, bodies.getLast? = some bl ∧
        (bodies.map (fun b => b ++ ['\n'])).flatten = pre ++ (bl ++ ['\n']) ∧
        (bodies.map (fun b => b ++ ['\n'])).flatten.dropLast = pre ++ bl
  | [], hne => absurd rfl hne
  | [b], _ => by
    refine ⟨[], b, ?_, ?_, ?_⟩ <;> simp
  | b :: b' :: bodies, _ => by
    obtain ⟨pre, bl, h1, h2, h3⟩ := flatten_nl_decomp (b' :: bodies) (by simp)
    have hflat_ne : ((b' :: bodies).map (fun x => x ++ ['\n'])).flatten ≠ [] := by
      rw [h2]
      simp
    refine ⟨(b ++ ['\n']) ++ pre, bl, ?_, ?_, ?_⟩
    · simpa using h1
    · rw [List.map_cons, List.flatten_cons, h2]
      simp [List.append_assoc]
    · rw [List.map_cons, List.flatten_cons,
        List.dropLast_append_of_ne_nil _ hflat_ne, h3]
      simp [List.append_assoc]

/-- A whitespace character does not occur in a clean field. -/
theorem cleanStr_not_mem {s : String} (hc : cleanStr s) {c : Char}
    (hws : c.isWhitespace) : c ∉ s.data :=
  fun hmem => hc.2 c hmem hws

/-- The last element of a cons is the last element of its nonempty tail. -/
theorem getLast?_cons_ne_nil {a : Char} {l : List Char} (h : l ≠ []) :
    (a :: l).getLast? = l.getLast? := by
  cases l with
  | nil => exact absurd rfl h
  | cons x xs => rw [List.getLast?_cons_cons]

/-- `prev_hash` extraction over well-formed content: the `entry_hash`
field of the last line, or `GENESIS` for empty content. -/
theorem logParsePrev_mkLogContent (entries : List LogEntry)
    (hc : ∀ q ∈ entries, cleanEntry q) :
    logParsePrev (mkLogContent entries)
      = ((entries.getLast?).map (fun q => q.entry_hash)).getD "GENESIS" := by
  by_cases hnil : entries = []
  · subst hnil
    rfl
  · obtain ⟨q0, qs, hentries⟩ : ∃ q0 qs, entries = q0 :: qs := by
      cases entries with
      | nil => exact absurd rfl hnil
      | cons a t => exact ⟨a, t, rfl⟩
    have hne : entries ≠ [] := hnil
    set bodies : List (List Char) := entries.map (fun q =>
      q.timestamp.data ++ ('\t' :: (q.receipt_hash.data ++ ('\t' ::
        (q.prev_hash.data ++ ('\t' :: q.entry_hash.data)))))) with hbodies
    have hbodies_ne : bodies ≠ [] := by
      rw [hbodies, hentries]
      simp
    have hfield_data_ne : ∀ {s : String}, cleanStr s → s.data ≠ [] := by
      intro s hs hd
      exact hs.1 ((show s = String.mk s.data from rfl).trans (by rw [hd]))
    have hbody_props : ∀ b ∈ bodies, b ≠ [] ∧ '\n' ∉ b ∧
        (∀ c, b.head? = some c → ¬ c.isWhitespace) ∧
        (∀ c, b.getLast? = some c → ¬ c.isWhitespace) := by
      intro b hb
      rw [hbodies] at hb
      simp only [List.mem_map] at hb
      obtain ⟨q, hq, rfl⟩ := hb
      obtain ⟨h1, h2, h3, h4⟩ := hc q hq
      have ht_ne : q.timestamp.data ≠ [] := hfield_data_ne h1
      have he_ne : q.entry_hash.data ≠ [] := hfield_data_ne h4
      refine ⟨by simp [ht_ne], ?_, ?_, ?_⟩
      · intro hmem
        simp only [List.mem_append, List.mem_cons] at hmem
        have e1 := h1.2 '\n'
        have e2 := h2.2 '\n'
        have e3 := h3.2 '\n'
        have e4 := h4.2 '\n'
        have hnl : ('\n' : Char).isWhitespace = true := by decide
        have hneq : ¬ (('\n' : Char) = '\t') := by decide
        tauto
      · intro c hcc
        rw [List.head?_append_of_ne_nil _ ht_ne] at hcc
        exact h1.2 c (List.mem_of_mem_head? hcc)
      · intro c hcc
        rw [List.getLast?_append_of_ne_nil _ (by simp),
          getLast?_cons_ne_nil (by simp),
          List.getLast?_append_of_ne_nil _ (by simp),
          getLast?_cons_ne_nil (by simp),
          List.getLast?_append_of_ne_nil _ (by simp),
          getLast?_cons_ne_nil he_ne] at hcc
        exact h4.2 c (List.mem_of_mem_getLast? hcc)
    have hflat : (mkLogContent entries).data
        = (bodies.map (fun b => b ++ ['\n'])).flatten := by
      show (String.join _).data = _
      rw [join_data, hbodies]
      simp only [List.map_map]
      congr 1
      refine List.map_congr_left (fun q _ => ?_)
      simp [Function.comp, logLine]
    obtain ⟨pre, bl, hbl, hdecomp, hdrop⟩ := flatten_nl_decomp bodies hbodies_ne
    have hbl_mem : bl ∈ bodies := List.mem_of_mem_getLast? hbl
    obtain ⟨hbl_ne, hbl_nl, _, hbl_last⟩ := hbody_props bl hbl_mem
    have htrim : jsTrim (mkLogContent entries).data
        = (bodies.map (fun b => b ++ ['\n'])).flatten.dropLast := by
      rw [hflat]
      apply jsTrim_eq_dropLast
      · rw [hdecomp]
        simp
      · -- head is the head of the first body
        obtain ⟨b0, brest, hb0eq⟩ : ∃ b0 brest, bodies = b0 :: brest := by
          cases hbb : bodies with
          | nil => exact absurd hbb hbodies_ne
          | cons a t => exact ⟨a, t, rfl⟩
        have hb0 := hbody_props b0 (by rw [hb0eq]; exact List.mem_cons_self _ _)
        rw [hb0eq]
        simp only [List.map_cons, List.flatten_cons]
        intro c hcc
        rw [List.head?_append_of_ne_nil _ (by simp),
          List.head?_append_of_ne_nil _ hb0.1] at hcc
        exact hb0.2.2.1 c hcc
      · rw [hdecomp, ← List.append_assoc, List.getLast?_concat]
      · rw [hdrop]
        intro c hcc
        rw [List.getLast?_append_of_ne_nil _ hbl_ne] at hcc
        exact hbl_last c hcc
    have hsplit : splitChar '\n' (jsTrim (mkLogContent entries).data) = bodies := by
      rw [htrim]
      exact splitChar_joined '\n' bodies hbodies_ne
        (fun b hb => (hbody_props b hb).2.1)
    have hfilter : ((splitChar '\n' (jsTrim (mkLogContent entries).data)).map
        String.mk).filter (fun l => decide (l ≠ "")) = bodies.map String.mk := by
      rw [hsplit]
      apply List.filter_eq_self.mpr
      intro a ha
      simp only [List.mem_map] at ha
      obtain ⟨b, hb, rfl⟩ := ha
      have hbne := (hbody_props b hb).1
      simp only [ne_eq, decide_eq_true_eq]
      intro hmk
      exact hbne (congrArg String.data hmk)
    rw [show logParsePrev (mkLogContent entries)
        = (match (((splitChar '\n' (jsTrim (mkLogContent entries).data)).map
            String.mk).filter (fun l => decide (l ≠ ""))).getLast? with
          | none => "GENESIS"
          | some last => ((splitChar '\t' last.data).map String.mk).getD 3
              "GENESIS") from rfl]
    rw [hfilter, List.getLast?_map, hbodies, List.getLast?_map, hentries]
    have hlast_entry : (q0 :: qs).getLast? = some ((q0 :: qs).getLast (by simp)) :=
      List.getLast?_eq_getLast _ _
    set qL := (q0 :: qs).getLast (by simp) with hqL
    have hqL_mem : qL ∈ entries := by
      rw [hentries]
      exact List.getLast_mem _
    obtain ⟨hQ1, hQ2, hQ3, hQ4⟩ := hc qL hqL_mem
    rw [hlast_entry]
    simp only [Option.map_some, Option.map_map, Option.getD_some, Function.comp]
    have htabs : splitChar '\t'
        (qL.timestamp.data ++ ('\t' :: (qL.receipt_hash.data ++ ('\t' ::
          (qL.prev_hash.data ++ ('\t' :: qL.entry_hash.data))))))
        = [qL.timestamp.data, qL.receipt_hash.data, qL.prev_hash.data,
           qL.entry_hash.data] := by
      rw [splitChar_append '\t' _ _
        (cleanStr_not_mem hQ1 (by decide)),
        splitChar_append '\t' _ _ (cleanStr_not_mem hQ2 (by decide)),
        splitChar_append '\t' _ _ (cleanStr_not_mem hQ3 (by decide)),
        splitChar_no_sep '\t' _ (cleanStr_not_mem hQ4 (by decide))]
    show (((splitChar '\t' (String.mk _).data).map String.mk).getD 3 "GENESIS") = _
    rw [show (String.mk (qL.timestamp.data ++ ('\t' :: (qL.receipt_hash.data ++
      ('\t' :: (qL.prev_hash.data ++ ('\t' :: qL.entry_hash.data))))))).data
        = qL.timestamp.data ++ ('\t' :: (qL.receipt_hash.data ++ ('\t' ::
          (qL.prev_hash.data ++ ('\t' :: qL.entry_hash.data))))) from rfl]
    rw [htabs]
    rfl

/-- Two strings with the same character content are equal. -/
theorem str_ext {a b : String} (h : a.data = b.data) : a = b :=
  congrArg String.mk h

/-- `mkLogContent` splits over list append: the file content for
`e1 ++ e2` is the content for `e1` followed by the content for `e2`. -/
theorem mkLogContent_append (e1 e2 : List LogEntry) :
    mkLogContent (e1 ++ e2) = mkLogContent e1 ++ mkLogContent e2 := by
  apply str_ext
  show (String.join _).data = (String.join _ ++ String.join _).data
  rw [show (String.join (e1.map (fun q => logLine q.timestamp q.receipt_hash
      q.prev_hash q.entry_hash)) ++ String.join (e2.map (fun q =>
      logLine q.timestamp q.receipt_hash q.prev_hash q.entry_hash))).data
    = (String.join (e1.map (fun q => logLine q.timestamp q.receipt_hash
        q.prev_hash q.entry_hash))).data ++ (String.join (e2.map (fun q =>
        logLine q.timestamp q.receipt_hash q.prev_hash
        q.entry_hash))).data from rfl]
  rw [join_data, join_data, join_data, List.map_append, List.map_append,
    List.flatten_append]

/-- **C5.**  Every append to the transparency log writes exactly one
tab-separated line `timestamp TAB receipt_hash TAB prev_hash TAB
entry_hash`: `prev_hash` is the `entry_hash` field of the last existing
line (`GENESIS` when the file is empty or absent), `entry_hash` is the
SHA-256 hex digest of `prev_hash \n receipt_hash \n timestamp`, the new
content is the old content with that single one-newline line appended, and
the existing lines are unchanged.  `sha256hex` abstracts the SHA-256 hex
digest of `node:crypto`; its outputs, like the written fields, are
nonempty whitespace-free strings. -/
theorem c5_append_log (sha256hex : String → String)
    (hH : ∀ s, cleanStr (sha256hex s))
    (entries : List LogEntry) (hc : ∀ q ∈ entries, cleanEntry q)
    (receipt_hash timestamp : String)
    (hr : cleanStr receipt_hash) (hts : cleanStr timestamp)
    (content : String) (res : LogAppendResult)
    (heq : appendTransparencyLog sha256hex (some (mkLogContent entries))
        receipt_hash timestamp = (content, res)) :
    res.prev_hash
        = ((entries.getLast?).map (fun q => q.entry_hash)).getD "GENESIS"
    ∧ res.entry_hash = sha256hex
        (res.prev_hash ++ "\n" ++ receipt_hash ++ "\n" ++ timestamp)
    ∧ content = mkLogContent entries
        ++ logLine timestamp receipt_hash res.prev_hash res.entry_hash
    ∧ content = mkLogContent (entries
        ++ [⟨timestamp, receipt_hash, res.prev_hash, res.entry_hash⟩])
    ∧ (logLine timestamp receipt_hash res.prev_hash
        res.entry_hash).data.count '\n' = 1
    ∧ (appendTransparencyLog sha256hex none receipt_hash
        timestamp).2.prev_hash = "GENESIS" := by
  have hres : res = (appendTransparencyLog sha256hex
      (some (mkLogContent entries)) receipt_hash timestamp).2 :=
    (congrArg Prod.snd heq).symm
  have hcontent : content = mkLogContent entries
      ++ logLine timestamp receipt_hash (logParsePrev (mkLogContent entries))
        (sha256hex (logParsePrev (mkLogContent entries) ++ "\n"
          ++ receipt_hash ++ "\n" ++ timestamp)) :=
    (congrArg Prod.fst heq).symm
  subst hres
  have hprev := logParsePrev_mkLogContent entries hc
  have hp_clean : cleanStr (logParsePrev (mkLogContent entries)) := by
    rw [hprev]
    cases hl : entries.getLast? with
    | none => decide
    | some q =>
      exact (hc q (List.mem_of_mem_getLast? hl)).2.2.2
  have he_clean : cleanStr (sha256hex (logParsePrev (mkLogContent entries)
      ++ "\n" ++ receipt_hash ++ "\n" ++ timestamp)) := hH _
  refine ⟨hprev, rfl, hcontent, ?_, ?_, rfl⟩
  · rw [hcontent, mkLogContent_append]
    rfl
  · show (logLine timestamp receipt_hash (logParsePrev (mkLogContent entries))
        (sha256hex (logParsePrev (mkLogContent entries) ++ "\n"
          ++ receipt_hash ++ "\n" ++ timestamp))).data.count '\n' = 1
    rw [logLine_data, List.count_append]
    have hbody : '\n' ∉ timestamp.data ++ ('\t' :: (receipt_hash.data
        ++ ('\t' :: ((logParsePrev (mkLogContent entries)).data ++ ('\t' ::
          (sha256hex (logParsePrev (mkLogContent entries) ++ "\n"
            ++ receipt_hash ++ "\n" ++ timestamp)).data))))) := by
      intro hmem
      simp only [List.mem_append, List.mem_cons] at hmem
      have hnl : ('\n' : Char).isWhitespace = true := by decide
      have hneq : ¬ (('\n' : Char) = '\t') := by decide
      rcases hmem with h | h | h | h | h | h | h
      · exact hts.2 '\n' h hnl
      · exact hneq h
      · exact hr.2 '\n' h hnl
      · exact hneq h
      · exact hp_clean.2 '\n' h hnl
      · exact hneq h
      · exact he_clean.2 '\n' h hnl
    rw [List.count_eq_zero.mpr hbody]
    decide

/-- Concrete run of the C5 theorem: appending receipt hash `R2` at
timestamp `T2` to a one-line log whose entry hash is `E1`, with the
digest function instantiated to a constant returning `H0`. -/
theorem c5_append_log_witness :
    ("E1" : String)
        = ((([(⟨"T1", "R1", "GENESIS", "E1"⟩ : LogEntry)]).getLast?).map
            (fun q => q.entry_hash)).getD "GENESIS"
    ∧ ("H0" : String)
        = (fun _ => "H0") (("E1" : String) ++ "\n" ++ "R2" ++ "\n" ++ "T2")
    ∧ ("T1\tR1\tGENESIS\tE1\nT2\tR2\tE1\tH0\n" : String)
        = mkLogContent [⟨"T1", "R1", "GENESIS", "E1"⟩]
            ++ logLine "T2" "R2" "E1" "H0"
    ∧ ("T1\tR1\tGENESIS\tE1\nT2\tR2\tE1\tH0\n" : String)
        = mkLogContent ([⟨"T1", "R1", "GENESIS", "E1"⟩]
            ++ [⟨"T2", "R2", "E1", "H0"⟩])
    ∧ (logLine "T2" "R2" "E1" "H0").data.count '\n' = 1
    ∧ (appendTransparencyLog (fun _ => "H0") none "R2" "T2").2.prev_hash
        = "GENESIS" :=
  c5_append_log (fun _ => "H0") (fun _ => (by decide : cleanStr "H0"))
    [⟨"T1", "R1", "GENESIS", "E1"⟩] (by decide) "R2" "T2" (by decide)
    (by decide) "T1\tR1\tGENESIS\tE1\nT2\tR2\tE1\tH0\n" ⟨"H0", "E1"⟩ rfl

/-- **C7, counterexample.**  The claimed result shape names a `bytes_read`
field, but the object `verifyBundle` returns carries the byte count under
the key `bytes`: on a concrete bundle and an empty artifact the result's
top-level keys are `ok, bytes, expected, actual, checks`, not
`ok, bytes_read, expected, actual, checks`. -/
theorem c7_result_shape_counterexample :
    verifyBundle (fun _ => [0]) (fun _ => [1]) (fun _ => "S")
        (fun _ _ _ => false) c7bundle [] = some c7res
    ∧ jKeys c7res.toJson = ["ok", "bytes", "expected", "actual", "checks"]
    ∧ jKeys c7res.toJson
        ≠ ["ok", "bytes_read", "expected", "actual", "checks"] :=
  ⟨rfl, rfl, by decide⟩

/-- **C7.**  Whenever `verifyBundle` returns a result, the printed result
object has exactly the top-level keys `ok, bytes, expected, actual,
checks` (the byte count is named `bytes`, not `bytes_read`), `checks`
carries one boolean per comparison (file BLAKE2b-512, file SHA-512, merkle
root, leaf count, signed_message_sha512, signature validity), `ok` is true
iff every one of those six booleans is true, and the verify command exits
with `0` iff `ok` is true and with `3` iff it is false. -/
theorem c7_verify_result (hb2b hsha : Bytes → Bytes)
    (sha512hex : String → String)
    (sigVerify : String → String → String → Bool)
    (bundle : Json) (reads : List Bytes) (r : VerifyResult)
    (heq : verifyBundle hb2b hsha sha512hex sigVerify bundle reads
        = some r) :
    jKeys r.toJson = ["ok", "bytes", "expected", "actual", "checks"]
    ∧ jKeys r.checks.toJson = ["file_blake2b_match", "file_sha512_match",
        "merkle_root_match", "leaf_count_match",
        "signed_message_sha512_match", "signature_valid"]
    ∧ (r.ok = true ↔ (r.checks.file_blake2b_match = true
        ∧ r.checks.file_sha512_match = true
        ∧ r.checks.merkle_root_match = true
        ∧ r.checks.leaf_count_match = true
        ∧ r.checks.signed_message_sha512_match = true
        ∧ r.checks.signature_valid = true))
    ∧ verifyExitCode r = (if r.ok then 0 else 3)
    ∧ (verifyExitCode r = 0 ↔ r.ok = true)
    ∧ (verifyExitCode r = 3 ↔ r.ok = false) := by
  refine ⟨rfl, rfl, ?_, rfl, ?_, ?_⟩
  · simp only [verifyBundle] at heq
    split at heq
    · split at heq
      · exact Option.noConfusion heq
      · obtain rfl := Option.some.inj heq
        simp [VerifyChecks.values]
    all_goals exact Option.noConfusion heq
  · cases hb : r.ok <;> simp [verifyExitCode, hb]
  · cases hb : r.ok <;> simp [verifyExitCode, hb]

/-- Concrete run of the C7 theorem on `c7bundle` and an empty artifact,
with the digest and signature primitives instantiated to constants: the
result keys, the per-check booleans, the `ok` conjunction and the exit
code `3` of the failed verification are all evaluated. -/
theorem c7_verify_result_witness :
    jKeys c7res.toJson = ["ok", "bytes", "expected", "actual", "checks"]
    ∧ jKeys c7res.checks.toJson = ["file_blake2b_match", "file_sha512_match",
        "merkle_root_match", "leaf_count_match",
        "signed_message_sha512_match", "signature_valid"]
    ∧ (c7res.ok = true ↔ (c7res.checks.file_blake2b_match = true
        ∧ c7res.checks.file_sha512_match = true
        ∧ c7res.checks.merkle_root_match = true
        ∧ c7res.checks.leaf_count_match = true
        ∧ c7res.checks.signed_message_sha512_match = true
        ∧ c7res.checks.signature_valid = true))
    ∧ verifyExitCode c7res = (if c7res.ok then 0 else 3)
    ∧ (verifyExitCode c7res = 0 ↔ c7res.ok = true)
    ∧ (verifyExitCode c7res = 3 ↔ c7res.ok = false) :=
  c7_verify_result (fun _ => [0]) (fun _ => [1]) (fun _ => "S")
    (fun _ _ _ => false) c7bundle [] c7res rfl

end Resethiq
